import Mathlib

/-!
umoci: extended attributes, compression pipeline and unpack.

A shallow embedding of three source files of umoci

* `pkg/system/xattr_unix.go`  (`Llistxattr`, `Lgetxattr`, `Lclearxattrs`),
* `mutate/compress.go`        (the three `Compressor` variants),
* `cmd/umoci/unpack.go`       (`unpack`),

together with the properties of them that the specification states.

The operating system and the libraries the code calls are not part of the
repository.  They appear here as explicit interfaces: the code is embedded as
functions over an arbitrary implementation of the interface, and the theorems
are stated over concrete implementations of it (an oracle of kernel answers,
or a model of the attribute sets of the files of a file system).
-/

namespace Umoci

/-! ## Go values -/

/-- A byte of a Go `[]byte` or `string`. -/
abbrev Byte := UInt8

/-- A Go `string` holding an attribute name: a sequence of bytes. -/
abbrev Name := List Byte

/-- The type `unix.Errno`. -/
abbrev Errno := Nat

/-- Operation not permitted. -/
def EPERM : Errno := 1
/-- Permission denied. -/
def EACCES : Errno := 13
/-- Result too large: the buffer handed to the kernel is too small. -/
def ERANGE : Errno := 34
/-- No data available: the named attribute does not exist. -/
def ENODATA : Errno := 61

/-- A Go `error` value as far as the embedded code can tell errors apart: a
kernel error number, a fresh error made from a message, or an error wrapped
with a message (`%w`, `errors.Wrap`). -/
inductive GoError where
  | errno (e : Errno)
  | msg (text : String)
  | wrapped (text : String) (cause : GoError)
deriving DecidableEq, Repr

/-- The test `errors.Is(err, os.ErrPermission)` on an error number: Go's
`Errno.Is` answers true exactly for `EACCES` and `EPERM`. -/
def isPermission (e : Errno) : Bool :=
  e == EACCES || e == EPERM

/-! ## The system calls used by `pkg/system/xattr_unix.go` -/

/-- What one `listxattr`/`getxattr` call hands back: the returned pair
`(sz, err)` and the contents of the destination buffer after the call. -/
structure SysRead where
  sz : Except Errno Nat
  dest : List Byte

/-- The three calls of `golang.org/x/sys/unix` that the wrapper uses, over a
state `σ` of the outside world.  The destination buffer is `none` for Go's
`nil`. -/
structure Unix (σ : Type) where
  Llistxattr : String → Option (List Byte) → σ → SysRead × σ
  Lgetxattr : String → Name → Option (List Byte) → σ → SysRead × σ
  Lremovexattr : String → Name → σ → Option Errno × σ

/-- The function `bytes.Split(s, []byte{sep})` for a one-byte separator: all
the pieces of `s` between separators, empty pieces included. -/
def bytesSplit (sep : Byte) : List Byte → List (List Byte)
  | [] => [[]]
  | b :: rest =>
    if b = sep then [] :: bytesSplit sep rest
    else
      match bytesSplit sep rest with
      | [] => [[b]]
      | seg :: segs => (b :: seg) :: segs

namespace system

variable {σ : Type}

/-- The `for` loop of `Llistxattr`: size query, allocation, fetch, and again
from the top on `ERANGE`.  `fuel` bounds the number of rounds; `none` is
returned when it runs out. -/
def Llistxattr.loop (os : Unix σ) (path : String) :
    Nat → σ → Option (Except Errno (List Byte)) × σ
  | 0, s => (none, s)
  | fuel + 1, s =>
    -- sz, err := unix.Llistxattr(path, nil)
    match os.Llistxattr path none s with
    | (⟨.error err, _⟩, s1) => (some (.error err), s1)
    | (⟨.ok sz, _⟩, s1) =>
      -- buffer = make([]byte, sz)
      let buffer : List Byte := List.replicate sz 0
      -- _, err = unix.Llistxattr(path, buffer)
      match os.Llistxattr path (some buffer) s1 with
      | (⟨.error err, _⟩, s2) =>
        if err = ERANGE then Llistxattr.loop os path fuel s2
        else (some (.error err), s2)
      | (⟨.ok _, buffer⟩, s2) => (some (.ok buffer), s2)

/-- The second half of `Llistxattr`: split the buffer at NUL and skip the
empty names. -/
def Llistxattr.names (buffer : List Byte) : List Name :=
  (bytesSplit 0 buffer).filter (fun name => name.length != 0)

/-- The function `Llistxattr(path)`. -/
def Llistxattr (os : Unix σ) (path : String) (fuel : Nat) (s : σ) :
    Option (Except Errno (List Name)) × σ :=
  match Llistxattr.loop os path fuel s with
  | (none, s1) => (none, s1)
  | (some (.error err), s1) => (some (.error err), s1)
  | (some (.ok buffer), s1) => (some (.ok (Llistxattr.names buffer)), s1)

/-- The function `Lgetxattr(path, name)`; `fuel` bounds the number of rounds
of its `for` loop. -/
def Lgetxattr (os : Unix σ) (path : String) (name : Name) :
    Nat → σ → Option (Except Errno (List Byte)) × σ
  | 0, s => (none, s)
  | fuel + 1, s =>
    -- sz, err := unix.Lgetxattr(path, name, nil)
    match os.Lgetxattr path name none s with
    | (⟨.error err, _⟩, s1) => (some (.error err), s1)
    | (⟨.ok sz, _⟩, s1) =>
      -- buffer = make([]byte, sz)
      let buffer : List Byte := List.replicate sz 0
      -- _, err = unix.Lgetxattr(path, name, buffer)
      match os.Lgetxattr path name (some buffer) s1 with
      | (⟨.error err, _⟩, s2) =>
        if err = ERANGE then Lgetxattr os path name fuel s2
        else (some (.error err), s2)
      | (⟨.ok _, buffer⟩, s2) => (some (.ok buffer), s2)

/-- The `for _, name := range names` loop of `Lclearxattrs`. -/
def Lclearxattrs.loop (os : Unix σ) (path : String) (except : List Name) :
    List Name → σ → Except GoError Unit × σ
  | [], s => (.ok (), s)
  | name :: rest, s =>
    if name ∈ except then Lclearxattrs.loop os path except rest s
    else
      match os.Lremovexattr path name s with
      | (none, s1) => Lclearxattrs.loop os path except rest s1
      | (some err, s1) =>
        if isPermission err then Lclearxattrs.loop os path except rest s1
        else (.error (.wrapped "lclearxattrs: remove xattr" (.errno err)), s1)

/-- The function `Lclearxattrs(path, except)`; `fuel` is handed to
`Llistxattr`. -/
def Lclearxattrs (os : Unix σ) (path : String) (except : List Name) (fuel : Nat) (s : σ) :
    Option (Except GoError Unit) × σ :=
  match Llistxattr os path fuel s with
  | (none, s1) => (none, s1)
  | (some (.error err), s1) =>
    (some (.error (.wrapped "lclearxattrs: get list" (.errno err))), s1)
  | (some (.ok names), s1) =>
    match Lclearxattrs.loop os path except names s1 with
    | (r, s2) => (some r, s2)

end system

/-! ## Two implementations of the system calls -/

/-- How the kernel serves `listxattr`/`getxattr` when the data it would
report is `content` (or the call fails with an error number): a destination
of size zero is a size query; a destination smaller than the data fails with
`ERANGE`; otherwise the data is copied to the front of the destination and
its length returned. -/
def kernelRead (content : Except Errno (List Byte)) (dest : Option (List Byte)) : SysRead :=
  let buf := dest.getD []
  match content with
  | .error e => ⟨.error e, buf⟩
  | .ok data =>
    if buf.length = 0 then ⟨.ok data.length, buf⟩
    else if buf.length < data.length then ⟨.error ERANGE, buf⟩
    else ⟨.ok data.length, data ++ buf.drop data.length⟩

/-- An oracle of kernel answers: what the `i`-th read call finds (the list
or the value as it is at that moment, or an error number), and how the
removal of a name ends. -/
structure Oracle where
  read : Nat → Except Errno (List Byte)
  remove : Name → Option Errno

/-- The calls made so far against an oracle. -/
structure Trace where
  reads : Nat
  sizeQueries : Nat
  fetches : Nat
  removals : List Name
deriving DecidableEq, Repr

/-- The trace after one more read call. -/
def Trace.tick (t : Trace) (dest : Option (List Byte)) : Trace :=
  match dest with
  | none => { t with reads := t.reads + 1, sizeQueries := t.sizeQueries + 1 }
  | some _ => { t with reads := t.reads + 1, fetches := t.fetches + 1 }

/-- The system calls answered by an oracle. -/
def scripted (o : Oracle) : Unix Trace where
  Llistxattr := fun _ dest t => (kernelRead (o.read t.reads) dest, t.tick dest)
  Lgetxattr := fun _ _ dest t => (kernelRead (o.read t.reads) dest, t.tick dest)
  Lremovexattr := fun _ name t => (o.remove name, { t with removals := t.removals ++ [name] })

/-- The NUL-terminated list of names, as `listxattr` reports it. -/
def encodeNames (names : List Name) : List Byte :=
  names.flatMap (fun name => name ++ [0])

/-- No such file or directory. -/
def ENOENT : Errno := 2

/-- The files of a file system that nobody else touches: the attributes of
the file at each path (`none` where there is no file), and the calls of
`removexattr` made so far, each with its path and its name. -/
structure Disk where
  files : String → Option (List (Name × List Byte))
  removals : List (String × Name)

/-- The system calls on such a file system.  A call on a path without a file
fails with `ENOENT`; a call on a path reads or changes the file at that path
and no other.  `deny` gives the error number with which the removal of a
protected name of a file is refused. -/
def onDisk (deny : String → Name → Option Errno) : Unix Disk where
  Llistxattr := fun path dest d =>
    match d.files path with
    | none => (kernelRead (.error ENOENT) dest, d)
    | some attrs => (kernelRead (.ok (encodeNames (attrs.map Prod.fst))) dest, d)
  Lgetxattr := fun path name dest d =>
    match d.files path with
    | none => (kernelRead (.error ENOENT) dest, d)
    | some attrs =>
      match attrs.lookup name with
      | none => (kernelRead (.error ENODATA) dest, d)
      | some value => (kernelRead (.ok value) dest, d)
  Lremovexattr := fun path name d =>
    let d1 : Disk := { d with removals := d.removals ++ [(path, name)] }
    match d.files path with
    | none => (some ENOENT, d1)
    | some attrs =>
      match deny path name with
      | some e => (some e, d1)
      | none =>
        if attrs.lookup name = none then (some ENODATA, d1)
        else
          (none,
            { d1 with
              files := fun p =>
                if p = path then some (attrs.filter (fun a => a.1 != name)) else d.files p })

/-- Rounds `0 .. k-1` of the size-then-fetch sequence, counted from read
call `c`, all pass the size query and fail the fetch with `ERANGE`. -/
def Oracle.races (o : Oracle) (c k : Nat) : Prop :=
  ∀ i, i < k → ∃ d, o.read (c + 2 * i) = .ok d ∧
    (kernelRead (o.read (c + 2 * i + 1)) (some (List.replicate d.length 0))).sz = .error ERANGE

/-- The trace after `k` more rounds of one size query and one fetch. -/
def Trace.rounds (t : Trace) (k : Nat) : Trace :=
  { t with reads := t.reads + 2 * k, sizeQueries := t.sizeQueries + k, fetches := t.fetches + k }

/-- The non-empty NUL-delimited segments of a byte sequence, in their
order: the words of the specification, over the library's `List.splitOn`. -/
def nulSegments (w : List Byte) : List Name :=
  (w.splitOn 0).filter (fun seg => seg ≠ [])

/-- An oracle for one race: the list grows from one byte to three between
the first size query and the first fetch, and is stable afterwards. -/
def raceOracle : Oracle where
  read := fun i => if i = 0 then .ok [0x61] else .ok [0x61, 0x62, 0]
  remove := fun _ => none

/-- An oracle where the data shrinks from four bytes to two between the size
query and the fetch. -/
def shrinkOracle : Oracle where
  read := fun i => if i = 0 then .ok [0x61, 0, 0x62, 0] else .ok [0x63, 0]
  remove := fun _ => none

/-- An oracle for a race followed by a shrink: the value grows from one
byte to three before the first fetch, is four bytes long at the second size
query, and two bytes long at the second fetch. -/
def raceShrinkOracle : Oracle where
  read := fun i =>
    if i = 0 then .ok [0x61]
    else if i = 1 then .ok [0x61, 0x62, 0x63]
    else if i = 2 then .ok [0x61, 0x62, 0x63, 0x64]
    else .ok [0x63, 0x64]
  remove := fun _ => none

/-- The trace before any call. -/
def Trace.start : Trace := ⟨0, 0, 0, []⟩

/-- The removal of `name` is attempted and fails with an error that is not
a permission error. -/
def Oracle.fatal (o : Oracle) (except : List Name) (name : Name) : Bool :=
  !decide (name ∈ except) &&
    match o.remove name with
    | none => false
    | some e => !isPermission e

/-- The names that are to be handed to `removexattr`, in order: every name
outside `except` that comes before the first fatal one, and that one. -/
def Oracle.attempts (o : Oracle) (except : List Name) (names : List Name) : List Name :=
  (names.takeWhile (fun name => !o.fatal except name)).filter (fun name => !decide (name ∈ except))
    ++ (names.find? (o.fatal except)).toList

/-- The result that `Lclearxattrs` is to give after a successful listing:
the wrapped error of the first fatal name, or success when there is none. -/
def Oracle.outcome (o : Oracle) (except : List Name) (names : List Name) : Except GoError Unit :=
  match names.find? (o.fatal except) with
  | none => .ok ()
  | some name =>
    .error (.wrapped "lclearxattrs: remove xattr" (.errno ((o.remove name).getD 0)))

/-- An oracle for `Lclearxattrs`: the list holds the names `a`, `b`, `c`, `d`;
removing `a` is refused with `EPERM`, removing `c` fails with `ENODATA`. -/
def clearOracle : Oracle where
  read := fun _ => .ok [0x61, 0, 0x62, 0, 0x63, 0, 0x64, 0]
  remove := fun name =>
    if name = [0x61] then some EPERM else if name = [0x63] then some ENODATA else none

/-- The name stays on the file: it is in `except`, or its removal is
refused. -/
def stays (deny : Name → Option Errno) (except : List Name) (name : Name) : Bool :=
  decide (name ∈ except) || (deny name).isSome

/-- A file system with two files: `rootfs/etc` with the attributes `a`, `b`
and `c`, and `rootfs/bin` with the attribute `a`. -/
def sampleDisk : Disk where
  files := fun p =>
    if p = "rootfs/etc" then some [([0x61], [1]), ([0x62], []), ([0x63], [2, 3])]
    else if p = "rootfs/bin" then some [([0x61], [4])]
    else none
  removals := []

/-- The removal of the name `a` is refused with `EPERM`, on every file. -/
def sampleDeny (_path : String) (name : Name) : Option Errno :=
  if name = [0x61] then some EPERM else none

/-! ## `mutate/compress.go` -/

namespace mutate

/-- An `io.Reader` as its consumer sees it: the bytes it yields before it
ends, and how it ends (`none` for end-of-stream, or an error). -/
structure Reader where
  data : List Byte
  err : Option GoError
deriving DecidableEq, Repr

/-- The outcomes of the library calls of one `Compress`: setting the writer
up (`SetConcurrency`, `zstd.NewWriter`), writing to it during the copy,
closing it, and closing the write end of the pipe. -/
structure Library where
  setup : Option GoError
  write : Option GoError
  writerClose : Option GoError
  pipeClose : Option GoError
deriving DecidableEq, Repr

/-- What the background task does, in order. -/
inductive Event where
  | copy
  | warnf (text : String) (err : GoError)
  | writerClose
  | pipeClose
  | pipeCloseWithError (err : GoError)
deriving DecidableEq, Repr

/-- The event closes the write end of the pipe. -/
def Event.closesPipe : Event → Bool
  | .pipeClose => true
  | .pipeCloseWithError _ => true
  | _ => false

/-- The event is a log line. -/
def Event.isLog : Event → Bool
  | .warnf _ _ => true
  | _ => false

/-- What the reader of an `io.Pipe` meets at the end of the data: the error
given to `CloseWithError`, or end-of-stream (`none`) after `Close`; `none`
too as long as the write end is open. -/
def pipeEnd : List Event → Option GoError
  | [] => none
  | .pipeClose :: _ => none
  | .pipeCloseWithError err :: _ => some err
  | _ :: rest => pipeEnd rest

/-- Modelled from the spec: `system.Copy(dst, src)` of `pkg/system`, whose
source is not among the files.  It hands the bytes of `src` to the writer
until end-of-stream and returns how many bytes it read, with the error of
the writer or of the stream if one of them fails. -/
def Copy (write : Option GoError) (src : Reader) : Int × Option GoError :=
  match write with
  | some err => (0, some err)
  | none => ((src.data.length : Int), src.err)

/-- The type `noopCompressor`. -/
structure noopCompressor where
deriving DecidableEq, Repr

/-- The method `noopCompressor.Compress`: the stream itself, behind a
`Close` that does nothing. -/
def noopCompressor.Compress (_nc : noopCompressor) (r : Reader) : Except GoError Reader :=
  .ok r

/-- The method `noopCompressor.MediaTypeSuffix`. -/
def noopCompressor.MediaTypeSuffix (_nc : noopCompressor) : String := ""

/-- The method `noopCompressor.BytesRead`. -/
def noopCompressor.BytesRead (_nc : noopCompressor) : Int := -1

/-- The type `gzipCompressor`. -/
structure gzipCompressor where
  bytesRead : Int
deriving DecidableEq, Repr

/-- The `go func()` of `gzipCompressor.Compress`, run to its end. -/
def gzipCompressor.task (gz : gzipCompressor) (lib : Library) (reader : Reader) :
    gzipCompressor × List Event :=
  -- bytesRead, err := system.Copy(gzw, reader)
  match Copy lib.write reader with
  | (_, some err) =>
    (gz, [.copy, .warnf "gzip compress: could not compress layer" err,
      .pipeCloseWithError (.wrapped "compressing layer" err)])
  | (bytesRead, none) =>
    let gz1 : gzipCompressor := { gz with bytesRead := bytesRead }
    match lib.writerClose with
    | some err =>
      (gz1, [.copy, .writerClose, .warnf "gzip compress: could not close gzip writer" err,
        .pipeCloseWithError (.wrapped "close gzip writer" err)])
    | none =>
      match lib.pipeClose with
      | some err =>
        (gz1, [.copy, .writerClose, .pipeClose, .warnf "gzip compress: could not close pipe" err])
      | none => (gz1, [.copy, .writerClose, .pipeClose])

/-- The method `gzipCompressor.Compress`, with its background task run to
the end: the error it returns, or the end that the reader of the returned
pipe meets; the compressor afterwards; and what the task did. -/
def gzipCompressor.Compress (gz : gzipCompressor) (lib : Library) (reader : Reader) :
    Except GoError (Option GoError) × gzipCompressor × List Event :=
  match lib.setup with
  | some err => (.error (.wrapped "set concurrency level to %v blocks" err), gz, [])
  | none =>
    match gz.task lib reader with
    | (gz1, events) => (.ok (pipeEnd events), gz1, events)

/-- The method `gzipCompressor.MediaTypeSuffix`. -/
def gzipCompressor.MediaTypeSuffix (_gz : gzipCompressor) : String := "gzip"

/-- The method `gzipCompressor.BytesRead`. -/
def gzipCompressor.BytesRead (gz : gzipCompressor) : Int := gz.bytesRead

/-- The type `zstdCompressor`. -/
structure zstdCompressor where
  bytesRead : Int
deriving DecidableEq, Repr

/-- The `go func()` of `zstdCompressor.Compress`, run to its end. -/
def zstdCompressor.task (zs : zstdCompressor) (lib : Library) (reader : Reader) :
    zstdCompressor × List Event :=
  -- bytesRead, err := system.Copy(zw, reader)
  match Copy lib.write reader with
  | (_, some err) =>
    (zs, [.copy, .warnf "zstd compress: could not compress layer" err,
      .pipeCloseWithError (.wrapped "compressing layer" err)])
  | (bytesRead, none) =>
    let zs1 : zstdCompressor := { zs with bytesRead := bytesRead }
    match lib.writerClose with
    | some err =>
      (zs1, [.copy, .writerClose, .warnf "zstd compress: could not close gzip writer" err,
        .pipeCloseWithError (.wrapped "close zstd writer" err)])
    | none =>
      match lib.pipeClose with
      | some err =>
        (zs1, [.copy, .writerClose, .pipeClose, .warnf "zstd compress: could not close pipe" err])
      | none => (zs1, [.copy, .writerClose, .pipeClose])

/-- The method `zstdCompressor.Compress`, with its background task run to
the end. -/
def zstdCompressor.Compress (zs : zstdCompressor) (lib : Library) (reader : Reader) :
    Except GoError (Option GoError) × zstdCompressor × List Event :=
  match lib.setup with
  | some err => (.error err, zs, [])
  | none =>
    match zs.task lib reader with
    | (zs1, events) => (.ok (pipeEnd events), zs1, events)

/-- The method `zstdCompressor.MediaTypeSuffix`. -/
def zstdCompressor.MediaTypeSuffix (_zs : zstdCompressor) : String := "zstd"

/-- The method `zstdCompressor.BytesRead`. -/
def zstdCompressor.BytesRead (zs : zstdCompressor) : Int := zs.bytesRead

/-- A library in which every call succeeds. -/
def Library.sound : Library := ⟨none, none, none, none⟩

/-- The writer `Close` comes strictly before the closing of the pipe: the
log is some events without a closing of the pipe, among them the writer
`Close`, and then the plain `Close` of the pipe. -/
def writerClosedFirst (events : List Event) : Prop :=
  ∃ before after, events = before ++ Event.pipeClose :: after ∧
    Event.writerClose ∈ before ∧ ∀ e ∈ before, e.closesPipe = false

/-- The close discipline of a background task, over what the task did
(`events`): a plain `Close` of the pipe only after a successful copy and a
successful writer `Close` that came first; the pipe closed with the wrapped
error when the copy fails (the writer is then not closed) or when the writer
`Close` fails (`closeText` is the message of that case); the pipe closed
exactly once, and only log lines after that. -/
def closeDiscipline (events : List Event) (lib : Library) (reader : Reader)
    (closeText : String) : Prop :=
  (Event.pipeClose ∈ events →
    (Copy lib.write reader).2 = none ∧ lib.writerClose = none ∧ writerClosedFirst events) ∧
  (∀ err, (Copy lib.write reader).2 = some err →
    pipeEnd events = some (.wrapped "compressing layer" err) ∧
    Event.pipeClose ∉ events ∧ Event.writerClose ∉ events) ∧
  (∀ err, (Copy lib.write reader).2 = none → lib.writerClose = some err →
    pipeEnd events = some (.wrapped closeText err) ∧ Event.pipeClose ∉ events) ∧
  ((Copy lib.write reader).2 = none → lib.writerClose = none →
    pipeEnd events = none ∧ Event.pipeClose ∈ events) ∧
  events.countP Event.closesPipe = 1 ∧
  ∀ e ∈ (events.dropWhile (fun e => !e.closesPipe)).tail, e.isLog = true

end mutate

/-! ## `cmd/umoci/unpack.go` -/

namespace cmd

/-- The function `strings.HasPrefix(s, pre)`, over the characters. -/
def startsWith : List Char → List Char → Bool
  | _, [] => true
  | [], _ :: _ => false
  | c :: s, p :: pre => c == p && startsWith s pre

/-- The function `strings.Replace(s, old, new, 1)`, over the characters:
the first occurrence of `old` in `s` gives way to `new`. -/
def replaceFirst (old new : List Char) : List Char → List Char
  | [] => if old = [] then new else []
  | c :: rest =>
    if startsWith (c :: rest) old then new ++ (c :: rest).drop old.length
    else c :: replaceFirst old new rest

/-- The decimal digit `d` as a character. -/
def digitChar (d : Nat) : Char := Char.ofNat (48 + d)

/-- The digits of `n` in front of `acc`, most significant first. -/
def itoa.go : Nat → Nat → List Char → List Char
  | 0, _, acc => acc
  | fuel + 1, n, acc =>
    if n / 10 = 0 then digitChar (n % 10) :: acc
    else itoa.go fuel (n / 10) (digitChar (n % 10) :: acc)

/-- The verb `%d` of `fmt.Sprintf` on a number that is not negative. -/
def itoa (n : Nat) : String := ⟨itoa.go (n + 1) n []⟩

/-- The type `IDMapping` of the runtime specification. -/
structure IDMapping where
  containerID : Nat
  hostID : Nat
  size : Nat
deriving DecidableEq, Repr

/-- The type `MapOptions`. -/
structure MapOptions where
  UIDMappings : List IDMapping
  GIDMappings : List IDMapping
  Rootless : Bool
deriving DecidableEq, Repr

/-- The type `ispec.Descriptor`. -/
structure Descriptor where
  MediaType : String
  Digest : String
  Size : Int
deriving DecidableEq, Repr

/-- The type `ispec.Manifest`. -/
structure Manifest where
  Config : Descriptor
  Layers : List Descriptor
deriving DecidableEq, Repr

/-- The dynamic type of `Blob.Data`: a manifest, or something else. -/
inductive BlobData where
  | manifest (m : Manifest)
  | other
deriving DecidableEq, Repr

/-- The type `casext.Blob`. -/
structure Blob where
  MediaType : String
  Data : BlobData
deriving DecidableEq, Repr

/-- The type `UmociMeta`. -/
structure UmociMeta where
  Version : String
  From : Descriptor
  MapOptions : MapOptions
deriving DecidableEq, Repr

/-- The constant `ispec.MediaTypeImageManifest`. -/
def MediaTypeImageManifest : String := "application/vnd.oci.image.manifest.v1+json"

/-- The constant `layer.RootfsName`. -/
def RootfsName : String := "rootfs"

/-- What `unpack` reads of its `cli.Context`: the application version, the
metadata entries, and the three flags with whether they were given. -/
structure Context where
  Version : String
  imagePath : String
  imageTag : String
  bundle : String
  rootless : Bool
  uidMapSet : Bool
  uidMap : List String
  gidMapSet : Bool
  gidMap : List String
deriving DecidableEq, Repr

/-- The call `ctx.Set("uid-map", value)`: one more value of the flag, which
counts as given from then on. -/
def Context.setUidMap (ctx : Context) (value : String) : Context :=
  { ctx with uidMapSet := true, uidMap := ctx.uidMap ++ [value] }

/-- The call `ctx.Set("gid-map", value)`. -/
def Context.setGidMap (ctx : Context) (value : String) : Context :=
  { ctx with gidMapSet := true, gidMap := ctx.gidMap ++ [value] }

/-- The outcomes of everything `unpack` calls outside its file. -/
structure World where
  Geteuid : Nat
  Getegid : Nat
  ParseMapping : String → Except GoError IDMapping
  Open : String → Option GoError
  ResolveReference : String → Except GoError (List Descriptor)
  FromDescriptor : Descriptor → Except GoError Blob
  Join : String → String → String
  MkdirAll : String → Option GoError
  UnpackManifest : String → Manifest → MapOptions → Option GoError
  Walk : String → Bool → Option GoError
  OpenFile : String → Option GoError
  WriteTo : String → Option GoError
  WriteBundleMeta : String → UmociMeta → Option GoError

/-- The calls that `unpack` makes, in order. -/
inductive Effect where
  | casOpen (imagePath : String)
  | resolveReference (name : String)
  | fromDescriptor (d : Descriptor)
  | mkdirAll (path : String)
  | unpackManifest (bundle : String) (m : Manifest) (opts : MapOptions)
  | walk (rootfs : String) (rootless : Bool)
  | openFile (path : String)
  | writeTo (path : String)
  | writeBundleMeta (bundle : String) (meta : UmociMeta)
  | closeFile
  | closeBlob
  | closeEngine
deriving DecidableEq, Repr

/-- The call creates or writes something under the bundle path. -/
def Effect.writes : Effect → Bool
  | .mkdirAll _ => true
  | .unpackManifest _ _ _ => true
  | .openFile _ => true
  | .writeTo _ => true
  | .writeBundleMeta _ _ => true
  | _ => false

/-- Lines 94 to 102 of `unpack`: the default mappings of rootless mode. -/
def rootlessDefaults (w : World) (ctx : Context) : Context :=
  if ctx.rootless then
    let ctx1 :=
      if !ctx.uidMapSet then ctx.setUidMap (itoa w.Geteuid ++ ":0:1") else ctx
    if !ctx1.gidMapSet then ctx1.setGidMap (itoa w.Getegid ++ ":0:1") else ctx1
  else ctx

/-- The two `for` loops of lines 104 to 117 of `unpack`, for one flag:
every value is parsed, in order, and the first failure is returned. -/
def parseMappings (w : World) (flag : String) : List String → Except GoError (List IDMapping)
  | [] => .ok []
  | value :: rest =>
    match w.ParseMapping value with
    | .error err => .error (.wrapped ("failure parsing " ++ flag ++ " " ++ value) err)
    | .ok idMap =>
      match parseMappings w flag rest with
      | .error err => .error err
      | .ok idMaps => .ok (idMap :: idMaps)

/-- Line 154 of `unpack`: the name of the snapshot, without its extension. -/
def mtreeName (digest : String) : String :=
  ⟨replaceFirst "sha256:".data "sha256_".data digest.data⟩

/-- Line 155 of `unpack`: the path of the snapshot. -/
def mtreePath (w : World) (bundlePath digest : String) : String :=
  w.Join bundlePath (mtreeName digest ++ ".mtree")

/-- Lines 149 to 227 of `unpack`: from the check of the media type on. -/
def unpack.extract (w : World) (bundlePath : String) (meta : UmociMeta) (manifestBlob : Blob) :
    Option GoError × List Effect :=
  if manifestBlob.MediaType != MediaTypeImageManifest then
    (some (.wrapped "invalid --image tag"
      (.msg ("descriptor does not point to ispec.MediaTypeImageManifest: not implemented: "
        ++ meta.From.MediaType))), [])
  else
    let fullRootfsPath := w.Join bundlePath RootfsName
    match manifestBlob.Data with
    | .other =>
      (some (.msg ("[internal error] unknown manifest blob type: " ++ manifestBlob.MediaType)), [])
    | .manifest manifest =>
      match w.MkdirAll bundlePath with
      | some err => (some (.wrapped "create bundle path" err), [.mkdirAll bundlePath])
      | none =>
        let e1 : List Effect :=
          [.mkdirAll bundlePath, .unpackManifest bundlePath manifest meta.MapOptions]
        match w.UnpackManifest bundlePath manifest meta.MapOptions with
        | some err => (some (.wrapped "create runtime bundle" err), e1)
        | none =>
          let e2 := e1 ++ [.walk fullRootfsPath meta.MapOptions.Rootless]
          match w.Walk fullRootfsPath meta.MapOptions.Rootless with
          | some err => (some (.wrapped "generate mtree spec" err), e2)
          | none =>
            let path := mtreePath w bundlePath meta.From.Digest
            let e3 := e2 ++ [.openFile path]
            match w.OpenFile path with
            | some err => (some (.wrapped "open mtree" err), e3)
            | none =>
              let e4 := e3 ++ [.writeTo path]
              match w.WriteTo path with
              | some err => (some (.wrapped "write mtree" err), e4 ++ [.closeFile])
              | none =>
                let e5 := e4 ++ [.writeBundleMeta bundlePath meta]
                match w.WriteBundleMeta bundlePath meta with
                | some err => (some (.wrapped "write umoci.json metadata" err), e5 ++ [.closeFile])
                | none => (none, e5 ++ [.closeFile])

/-- Lines 132 to 147 of `unpack`: the reference is resolved and the blob
fetched. -/
def unpack.resolve (w : World) (fromName bundlePath : String) (version : String)
    (opts : MapOptions) : Option GoError × List Effect :=
  match w.ResolveReference fromName with
  | .error err => (some (.wrapped "get descriptor" err), [.resolveReference fromName])
  | .ok fromDescriptors =>
    match fromDescriptors with
    | [fromDescriptor] =>
      let meta : UmociMeta := ⟨version, fromDescriptor, opts⟩
      match w.FromDescriptor meta.From with
      | .error err =>
        (some (.wrapped "get manifest" err),
          [.resolveReference fromName, .fromDescriptor meta.From])
      | .ok manifestBlob =>
        match unpack.extract w bundlePath meta manifestBlob with
        | (r, effects) =>
          (r, [.resolveReference fromName, .fromDescriptor meta.From] ++ effects ++ [.closeBlob])
    | _ => (some (.msg ("tag is ambiguous: " ++ fromName)), [.resolveReference fromName])

/-- The function `unpack(ctx)`: the error it returns (`none` for `nil`) and
the calls it made. -/
def unpack (w : World) (ctx : Context) : Option GoError × List Effect :=
  let ctx1 := rootlessDefaults w ctx
  match parseMappings w "--uid-map" ctx1.uidMap with
  | .error err => (some err, [])
  | .ok uidMappings =>
    match parseMappings w "--gid-map" ctx1.gidMap with
    | .error err => (some err, [])
    | .ok gidMappings =>
      let opts : MapOptions := ⟨uidMappings, gidMappings, ctx.rootless⟩
      match w.Open ctx.imagePath with
      | some err => (some (.wrapped "open CAS" err), [.casOpen ctx.imagePath])
      | none =>
        match unpack.resolve w ctx.imageTag ctx.bundle ctx.Version opts with
        | (r, effects) => (r, [.casOpen ctx.imagePath] ++ effects ++ [.closeEngine])

/-- The decimal number a field of a mapping stands for, if it is one. -/
def atoi (field : List Char) : Option Nat :=
  if field ≠ [] ∧ field.all Char.isDigit = true then
    some (field.foldl (fun acc c => acc * 10 + (c.toNat - 48)) 0)
  else none

/-- Modelled from the spec: `idtools.ParseMapping` of `pkg/idtools`, whose
source is not among the files.  The flags `--uid-map` and `--gid-map` are
each parsed as `containerID:hostID:size`. -/
def ParseMapping (spec : String) : Except GoError IDMapping :=
  match spec.data.splitOn ':' with
  | [container, host, size] =>
    match atoi container, atoi host, atoi size with
    | some c, some h, some z => .ok ⟨c, h, z⟩
    | _, _, _ => .error (.msg ("invalid mapping: " ++ spec))
  | _ => .error (.msg ("invalid number of fields in mapping: " ++ spec))

/-- A store in which the tag resolves to `ds` and every blob is a manifest
list; the rest succeeds. -/
def sampleWorld (ds : List Descriptor) : World where
  Geteuid := 1000
  Getegid := 100
  ParseMapping := ParseMapping
  Open := fun _ => none
  ResolveReference := fun _ => .ok ds
  FromDescriptor := fun _ => .ok ⟨"application/vnd.oci.image.index.v1+json", .other⟩
  Join := fun dir file => dir ++ "/" ++ file
  MkdirAll := fun _ => none
  UnpackManifest := fun _ _ _ => none
  Walk := fun _ _ => none
  OpenFile := fun _ => none
  WriteTo := fun _ => none
  WriteBundleMeta := fun _ _ => none

/-- A manifest without layers. -/
def sampleManifest : Manifest :=
  ⟨⟨"application/vnd.oci.image.config.v1+json", "sha256:cc", 0⟩, []⟩

/-- A store in which the tag resolves to the one descriptor `sha256:aa` of an
image manifest, run with effective uid 1000 and gid 100; the flags are
parsed as the specification says, and every call succeeds. -/
def rootlessWorld : World where
  Geteuid := 1000
  Getegid := 100
  ParseMapping := ParseMapping
  Open := fun _ => none
  ResolveReference := fun _ => .ok [⟨MediaTypeImageManifest, "sha256:aa", 0⟩]
  FromDescriptor := fun _ => .ok ⟨MediaTypeImageManifest, .manifest sampleManifest⟩
  Join := fun dir file => dir ++ "/" ++ file
  MkdirAll := fun _ => none
  UnpackManifest := fun _ _ _ => none
  Walk := fun _ _ => none
  OpenFile := fun _ => none
  WriteTo := fun _ => none
  WriteBundleMeta := fun _ _ => none

/-- A command line: image `image`, tag `latest`, bundle `bundle`, and the
three flags. -/
def sampleContext (rootless : Bool) (uidMap gidMap : List String) : Context where
  Version := "0.2.0"
  imagePath := "image"
  imageTag := "latest"
  bundle := "bundle"
  rootless := rootless
  uidMapSet := !uidMap.isEmpty
  uidMap := uidMap
  gidMapSet := !gidMap.isEmpty
  gidMap := gidMap

/-- A descriptor with the given digest. -/
def sampleDescriptor (digest : String) : Descriptor :=
  ⟨MediaTypeImageManifest, digest, 0⟩

end cmd

/-! ## Lemmas: the retry loop -/

theorem Trace.rounds_zero (t : Trace) : t.rounds 0 = t := by
  cases t; simp [Trace.rounds]

theorem Trace.rounds_succ (t : Trace) (b : List Byte) (k : Nat) :
    ((t.tick none).tick (some b)).rounds k = t.rounds (k + 1) := by
  cases t; simp [Trace.rounds, Trace.tick]; omega

theorem Trace.tick_reads (t : Trace) (d : Option (List Byte)) : (t.tick d).reads = t.reads + 1 := by
  cases d <;> rfl

theorem Oracle.races_tail (o : Oracle) (c k : Nat) (h : o.races c (k + 1)) : o.races (c + 2) k := by
  intro i hi
  obtain ⟨d, h1, h2⟩ := h (i + 1) (by omega)
  refine ⟨d, ?_, ?_⟩
  · rw [← h1]; congr 1; omega
  · rw [← h2]; congr 3; omega

theorem scripted_list (o : Oracle) (path : String) (dest : Option (List Byte)) (t : Trace) :
    (scripted o).Llistxattr path dest t = (kernelRead (o.read t.reads) dest, t.tick dest) := rfl

theorem scripted_get (o : Oracle) (path : String) (name : Name) (dest : Option (List Byte))
    (t : Trace) :
    (scripted o).Lgetxattr path name dest t = (kernelRead (o.read t.reads) dest, t.tick dest) :=
  rfl

theorem kernelRead_size (d : List Byte) : kernelRead (.ok d) none = ⟨.ok d.length, []⟩ := rfl

theorem kernelRead_error (e : Errno) (dest : Option (List Byte)) :
    kernelRead (.error e) dest = ⟨.error e, dest.getD []⟩ := rfl

theorem getxattr_loop_eq (o : Oracle) (path : String) (name : Name) (fuel : Nat) (t : Trace) :
    system.Lgetxattr (scripted o) path name fuel t
      = system.Llistxattr.loop (scripted o) path fuel t := by
  induction fuel generalizing t with
  | zero => rfl
  | succ n ih =>
    simp only [system.Lgetxattr, system.Llistxattr.loop, scripted_list, scripted_get]
    split
    · rfl
    · split
      · split
        · exact ih _
        · rfl
      · rfl

theorem loop_size_error (o : Oracle) (path : String) (fuel : Nat) (t : Trace) (e : Errno)
    (h : o.read t.reads = .error e) :
    system.Llistxattr.loop (scripted o) path (fuel + 1) t = (some (.error e), t.tick none) := by
  simp [system.Llistxattr.loop, scripted_list, kernelRead_error, h]

theorem loop_fetch (o : Oracle) (path : String) (fuel : Nat) (t : Trace) (d : List Byte)
    (h : o.read t.reads = .ok d) :
    system.Llistxattr.loop (scripted o) path (fuel + 1) t =
      match kernelRead (o.read (t.reads + 1)) (some (List.replicate d.length 0)) with
      | ⟨.error err, _⟩ =>
        if err = ERANGE then
          system.Llistxattr.loop (scripted o) path fuel
            ((t.tick none).tick (some (List.replicate d.length 0)))
        else (some (.error err), (t.tick none).tick (some (List.replicate d.length 0)))
      | ⟨.ok _, buffer⟩ =>
        (some (.ok buffer), (t.tick none).tick (some (List.replicate d.length 0))) := by
  rw [system.Llistxattr.loop]
  simp only [scripted_list, h, kernelRead_size, Trace.tick_reads]
  generalize kernelRead (o.read (t.reads + 1)) (some (List.replicate d.length 0)) = r
  obtain ⟨rsz, rbuf⟩ := r
  cases rsz <;> rfl

theorem loop_rounds (o : Oracle) (path : String) (k : Nat) :
    ∀ (fuel : Nat) (t : Trace), o.races t.reads k →
      system.Llistxattr.loop (scripted o) path (k + fuel) t
        = system.Llistxattr.loop (scripted o) path fuel (t.rounds k) := by
  induction k with
  | zero => intro fuel t _; simp [Trace.rounds_zero]
  | succ k ih =>
    intro fuel t h
    obtain ⟨d, h1, h2⟩ := h 0 (by omega)
    simp only [Nat.mul_zero, Nat.add_zero] at h1 h2
    have hk : k + 1 + fuel = (k + fuel) + 1 := by omega
    rw [hk, loop_fetch o path _ t d h1]
    generalize hr : kernelRead (o.read (t.reads + 1)) (some (List.replicate d.length 0)) = r at h2
    obtain ⟨rsz, rbuf⟩ := r
    simp only at h2
    subst h2
    simp only [if_true]
    rw [ih fuel _ (by
      have := Oracle.races_tail o t.reads k h
      simpa [Trace.tick_reads, Nat.add_assoc] using this)]
    rw [Trace.rounds_succ]

/-! ## Lemmas: splitting at NUL -/

theorem bytesSplit_ne_nil (sep : Byte) (l : List Byte) : bytesSplit sep l ≠ [] := by
  induction l with
  | nil => simp [bytesSplit]
  | cons b rest ih =>
    rw [bytesSplit]
    split
    · simp
    · split <;> simp

theorem bytesSplit_sep_cons (sep : Byte) (rest : List Byte) :
    bytesSplit sep (sep :: rest) = [] :: bytesSplit sep rest := by
  simp [bytesSplit]

theorem bytesSplit_eq_splitOn (sep : Byte) (l : List Byte) :
    bytesSplit sep l = l.splitOn sep := by
  induction l with
  | nil => rfl
  | cons b rest ih =>
    have hne := bytesSplit_ne_nil sep rest
    rw [List.splitOn, List.splitOnP_cons, ← List.splitOn, ← ih, bytesSplit]
    by_cases h : b = sep
    · simp [h]
    · have h2 : (b == sep) = false := by simpa using h
      rw [if_neg h, h2]
      revert hne
      cases bytesSplit sep rest with
      | nil => intro hne; exact absurd rfl hne
      | cons seg segs => intro _; simp [List.modifyHead]

theorem bytesSplit_append_seps (sep : Byte) (w : List Byte) (m : Nat) :
    bytesSplit sep (w ++ List.replicate m sep) = bytesSplit sep w ++ List.replicate m [] := by
  induction w with
  | nil =>
    induction m with
    | zero => rfl
    | succ m ih =>
      rw [List.replicate_succ, List.nil_append, bytesSplit_sep_cons]
      rw [List.nil_append] at ih
      rw [ih]
      simp [bytesSplit, List.replicate_succ]
  | cons b rest ih =>
    rw [List.cons_append, bytesSplit, bytesSplit, ih]
    by_cases h : b = sep
    · simp [h]
    · rw [if_neg h, if_neg h]
      have hne := bytesSplit_ne_nil sep rest
      revert hne
      cases bytesSplit sep rest with
      | nil => intro hne; exact absurd rfl hne
      | cons seg segs => intro _; rfl

theorem bytesSplit_not_mem (sep : Byte) (l : List Byte) :
    ∀ seg ∈ bytesSplit sep l, sep ∉ seg := by
  induction l with
  | nil => simp [bytesSplit]
  | cons b rest ih =>
    intro seg hseg
    rw [bytesSplit] at hseg
    by_cases h : b = sep
    · rw [if_pos h] at hseg
      rcases List.mem_cons.1 hseg with h1 | h1
      · simp [h1]
      · exact ih seg h1
    · rw [if_neg h] at hseg
      have hne := bytesSplit_ne_nil sep rest
      revert hne hseg ih
      cases bytesSplit sep rest with
      | nil => intro _ _ hne; exact absurd rfl hne
      | cons sg segs =>
        intro ih hseg _
        rcases List.mem_cons.1 hseg with h1 | h1
        · subst h1
          intro hmem
          rcases List.mem_cons.1 hmem with h2 | h2
          · exact h h2.symm
          · exact ih sg (List.mem_cons_self _ _) h2
        · exact ih seg (List.mem_cons_of_mem _ h1)

theorem bytesSplit_name_cons (sep : Byte) (name rest : List Byte) (h : sep ∉ name) :
    bytesSplit sep (name ++ sep :: rest) = name :: bytesSplit sep rest := by
  induction name with
  | nil => simp [bytesSplit]
  | cons b name ih =>
    have hb : b ≠ sep := fun hb => h (by simp [hb])
    have hn : sep ∉ name := fun hn => h (List.mem_cons_of_mem _ hn)
    rw [List.cons_append, bytesSplit, if_neg hb, ih hn]

theorem names_padding (w : List Byte) (m : Nat) :
    system.Llistxattr.names (w ++ List.replicate m 0) = system.Llistxattr.names w := by
  simp [system.Llistxattr.names, bytesSplit_append_seps, List.filter_append, List.filter_replicate]

theorem names_valid (w : List Byte) :
    ∀ name ∈ system.Llistxattr.names w, name ≠ [] ∧ (0 : Byte) ∉ name := by
  intro name h
  simp only [system.Llistxattr.names, List.mem_filter] at h
  refine ⟨?_, bytesSplit_not_mem 0 w name h.1⟩
  intro hn
  simp [hn] at h

theorem names_encode (ns : List Name) (h : ∀ name ∈ ns, name ≠ [] ∧ (0 : Byte) ∉ name) :
    system.Llistxattr.names (encodeNames ns) = ns := by
  induction ns with
  | nil => simp [encodeNames, system.Llistxattr.names, bytesSplit]
  | cons n ns ih =>
    have hn := h n (List.mem_cons_self _ _)
    have ih1 := ih (fun name hm => h name (List.mem_cons_of_mem _ hm))
    have e : encodeNames (n :: ns) = n ++ 0 :: encodeNames ns := by
      simp [encodeNames]
    rw [e]
    simp only [system.Llistxattr.names] at ih1 ⊢
    rw [bytesSplit_name_cons 0 n _ hn.2, List.filter_cons]
    have : (n.length != 0) = true := by
      cases n with
      | nil => exact absurd rfl hn.1
      | cons _ _ => simp
    rw [if_pos this, ih1]

/-! ## The claims about `pkg/system/xattr_unix.go` -/

/-- The retry discipline of `Lgetxattr` and `Llistxattr` over an oracle of
kernel answers.  `Lgetxattr` runs the very loop of `Llistxattr`; an error of
the size query is returned at once after that one call; an `ERANGE` of the
fetch starts the size-then-fetch sequence again; any other error of the fetch
is returned at once; and when `k` rounds fail with `ERANGE` and round `k`
passes, both functions return from the destination buffer of that last fetch
after exactly `k + 1` size queries and `k + 1` fetches, for every
`fuel > k`. -/
theorem retry_discipline (o : Oracle) (path : String) (name : Name) (t : Trace) :
    (∀ fuel, system.Lgetxattr (scripted o) path name fuel t
        = system.Llistxattr.loop (scripted o) path fuel t) ∧
    (∀ fuel e, o.read t.reads = .error e →
      system.Lgetxattr (scripted o) path name (fuel + 1) t = (some (.error e), t.tick none) ∧
      system.Llistxattr (scripted o) path (fuel + 1) t = (some (.error e), t.tick none)) ∧
    (∀ fuel d, o.read t.reads = .ok d →
      (kernelRead (o.read (t.reads + 1)) (some (List.replicate d.length 0))).sz
        = .error ERANGE →
      system.Lgetxattr (scripted o) path name (fuel + 1) t
        = system.Lgetxattr (scripted o) path name fuel (t.rounds 1) ∧
      system.Llistxattr (scripted o) path (fuel + 1) t
        = system.Llistxattr (scripted o) path fuel (t.rounds 1)) ∧
    (∀ fuel d e, o.read t.reads = .ok d →
      (kernelRead (o.read (t.reads + 1)) (some (List.replicate d.length 0))).sz = .error e →
      e ≠ ERANGE →
      system.Lgetxattr (scripted o) path name (fuel + 1) t = (some (.error e), t.rounds 1) ∧
      system.Llistxattr (scripted o) path (fuel + 1) t = (some (.error e), t.rounds 1)) ∧
    (∀ k fuel d n buf, o.races t.reads k → o.read (t.reads + 2 * k) = .ok d →
      kernelRead (o.read (t.reads + 2 * k + 1)) (some (List.replicate d.length 0))
        = ⟨.ok n, buf⟩ →
      k < fuel →
      system.Lgetxattr (scripted o) path name fuel t = (some (.ok buf), t.rounds (k + 1)) ∧
      system.Llistxattr (scripted o) path fuel t
        = (some (.ok (system.Llistxattr.names buf)), t.rounds (k + 1))) := by
  have hround : ∀ (u : Trace) (b : List Byte), (u.tick none).tick (some b) = u.rounds 1 := by
    intro u b
    rw [← Trace.rounds_succ u b 0, Trace.rounds_zero]
  refine ⟨fun fuel => getxattr_loop_eq o path name fuel t, ?_, ?_, ?_, ?_⟩
  · intro fuel e h
    rw [getxattr_loop_eq, system.Llistxattr, loop_size_error o path fuel t e h]
    exact ⟨rfl, rfl⟩
  · intro fuel d h1 h2
    rw [getxattr_loop_eq, getxattr_loop_eq, system.Llistxattr, system.Llistxattr,
      loop_fetch o path fuel t d h1]
    generalize kernelRead (o.read (t.reads + 1)) (some (List.replicate d.length 0)) = r at h2
    obtain ⟨rsz, rbuf⟩ := r
    simp only at h2
    subst h2
    simp only [if_true, hround]
    constructor <;> first | rfl | trivial
  · intro fuel d e h1 h2 hne
    rw [getxattr_loop_eq, system.Llistxattr, loop_fetch o path fuel t d h1]
    generalize kernelRead (o.read (t.reads + 1)) (some (List.replicate d.length 0)) = r at h2
    obtain ⟨rsz, rbuf⟩ := r
    simp only at h2
    subst h2
    simp only [if_neg hne, hround]
    constructor <;> first | rfl | trivial
  · intro k fuel d n buf hr h1 h2 hlt
    obtain ⟨m, rfl⟩ : ∃ m, fuel = k + (m + 1) := ⟨fuel - k - 1, by omega⟩
    have hl : system.Llistxattr.loop (scripted o) path (k + (m + 1)) t
        = (some (.ok buf), t.rounds (k + 1)) := by
      rw [loop_rounds o path k (m + 1) t hr, loop_fetch o path m (t.rounds k) d h1]
      have e1 : (t.rounds k).reads + 1 = t.reads + 2 * k + 1 := rfl
      rw [e1, h2, hround]
      cases t
      simp [Trace.rounds]
      omega
    rw [getxattr_loop_eq, system.Llistxattr, hl]
    exact ⟨rfl, rfl⟩

/-- The retry discipline at a concrete oracle: one `ERANGE` round, then
success after two size queries and two fetches. -/
theorem retry_discipline_witness :
    raceOracle.races Trace.start.reads 1 ∧
    system.Lgetxattr (scripted raceOracle) "rootfs/etc" [0x61] 2 Trace.start
      = (some (.ok [0x61, 0x62, 0]), ⟨4, 2, 2, []⟩) ∧
    system.Llistxattr (scripted raceOracle) "rootfs/etc" 2 Trace.start
      = (some (.ok [[0x61, 0x62]]), ⟨4, 2, 2, []⟩) :=
  have hr : raceOracle.races Trace.start.reads 1 := by
    intro i hi
    obtain rfl : i = 0 := by omega
    exact ⟨[0x61], rfl, rfl⟩
  ⟨hr, (retry_discipline raceOracle "rootfs/etc" [0x61] Trace.start).2.2.2.2
    1 2 [0x61, 0x62, 0] 3 [0x61, 0x62, 0] hr rfl rfl (by decide)⟩

/-- C3, at the failing input: the first fetch fails with `ERANGE`, the
second size query reports four bytes and the second fetch succeeds with the
two bytes `63 64`, the value having shrunk in between.  The control flow is
as claimed, two size queries and two fetches, but `Lgetxattr` returns the
four bytes `63 64 00 00`, not the data of the last attempt. -/
theorem retry_returns_padding :
    raceShrinkOracle.races Trace.start.reads 1 ∧
    raceShrinkOracle.read 2 = .ok [0x61, 0x62, 0x63, 0x64] ∧
    raceShrinkOracle.read 3 = .ok [0x63, 0x64] ∧
    kernelRead (raceShrinkOracle.read 3) (some (List.replicate 4 0))
      = ⟨.ok 2, [0x63, 0x64, 0, 0]⟩ ∧
    system.Lgetxattr (scripted raceShrinkOracle) "rootfs/etc" [0x61] 2 Trace.start
      = (some (.ok [0x63, 0x64, 0, 0]), ⟨4, 2, 2, []⟩) ∧
    ([0x63, 0x64, 0, 0] : List Byte) ≠ [0x63, 0x64] := by
  refine ⟨?_, rfl, rfl, rfl, rfl, by decide⟩
  intro i hi
  obtain rfl : i = 0 := by omega
  exact ⟨[0x61], rfl, rfl⟩

/-- C4: name splitting in `Llistxattr`.  When the size query reports `sz`
and the fetch succeeds having written the bytes `w` (at most `sz` of them)
to the front of the zeroed buffer, `Llistxattr` returns exactly the non-empty
NUL-delimited segments of `w`, in order; none of them is empty or contains a
NUL; and when `w` is a list of valid names, each with its NUL terminator,
the result is that list of names. -/
theorem listxattr_names {σ : Type} (os : Unix σ) (path : String) (fuel : Nat) (s s1 s2 : σ)
    (sz : Nat) (r w : List Byte)
    (hsize : os.Llistxattr path none s = (⟨.ok sz, r⟩, s1))
    (_hle : w.length ≤ sz)
    (hfetch : os.Llistxattr path (some (List.replicate sz 0)) s1
      = (⟨.ok w.length, w ++ List.replicate (sz - w.length) 0⟩, s2)) :
    system.Llistxattr os path (fuel + 1) s = (some (.ok (nulSegments w)), s2) ∧
    (∀ name ∈ nulSegments w, name ≠ [] ∧ (0 : Byte) ∉ name) ∧
    (∀ ns : List Name, (∀ name ∈ ns, name ≠ [] ∧ (0 : Byte) ∉ name) →
      w = encodeNames ns → nulSegments w = ns) := by
  have hseg : ∀ v : List Byte, nulSegments v = system.Llistxattr.names v := by
    intro v
    simp only [nulSegments, system.Llistxattr.names, bytesSplit_eq_splitOn]
    apply List.filter_congr
    intro seg _
    cases seg <;> simp
  refine ⟨?_, ?_, ?_⟩
  · rw [system.Llistxattr, system.Llistxattr.loop]
    simp only [hsize, hfetch, hseg, names_padding]
  · rw [hseg]; exact names_valid w
  · intro ns hns hw
    rw [hseg, hw]; exact names_encode ns hns

/-- C4, at a concrete oracle: the list shrank from four bytes to two between
the two calls; the padding gives no name. -/
theorem listxattr_names_witness :
    system.Llistxattr (scripted shrinkOracle) "rootfs/etc" 1 Trace.start
      = (some (.ok [[0x63]]), ⟨2, 1, 1, []⟩) :=
  (listxattr_names (scripted shrinkOracle) "rootfs/etc" 0 Trace.start ⟨1, 1, 0, []⟩
    ⟨2, 1, 1, []⟩ 4 [] [0x63, 0] rfl (by decide) rfl).1

/-- C10, what the code does: when the size query reports `sz` and the fetch
succeeds having written `w`, `Lgetxattr` returns the whole buffer of `sz`
bytes, that is `w` followed by `sz - length w` zero bytes. -/
theorem getxattr_whole_buffer {σ : Type} (os : Unix σ) (path : String) (name : Name)
    (fuel : Nat) (s s1 s2 : σ) (sz : Nat) (r w : List Byte)
    (hsize : os.Lgetxattr path name none s = (⟨.ok sz, r⟩, s1))
    (hle : w.length ≤ sz)
    (hfetch : os.Lgetxattr path name (some (List.replicate sz 0)) s1
      = (⟨.ok w.length, w ++ List.replicate (sz - w.length) 0⟩, s2)) :
    ∃ buffer, system.Lgetxattr os path name (fuel + 1) s = (some (.ok buffer), s2) ∧
      buffer = w ++ List.replicate (sz - w.length) 0 ∧ buffer.length = sz := by
  refine ⟨_, ?_, rfl, ?_⟩
  · rw [system.Lgetxattr]
    simp only [hsize, hfetch]
  · simp only [List.length_append, List.length_replicate]
    omega

/-- C10, at the failing input: the value shrinks from four bytes to the two
bytes `63 00` between the size query and the fetch; `Lgetxattr` returns four
bytes, the two of the value and two bytes of padding. -/
theorem getxattr_shrunk_value :
    system.Lgetxattr (scripted shrinkOracle) "rootfs/etc" [0x61] 1 Trace.start
      = (some (.ok [0x63, 0, 0, 0]), ⟨2, 1, 1, []⟩) ∧
    ([0x63, 0, 0, 0] : List Byte) ≠ [0x63, 0] := by
  constructor
  · rfl
  · decide

/-! ## Lemmas: `Lclearxattrs` over an oracle -/

theorem scripted_remove (o : Oracle) (path : String) (name : Name) (t : Trace) :
    (scripted o).Lremovexattr path name t
      = (o.remove name, { t with removals := t.removals ++ [name] }) := rfl

theorem clear_loop_scripted (o : Oracle) (path : String) (except : List Name) :
    ∀ (names : List Name) (t : Trace),
      system.Lclearxattrs.loop (scripted o) path except names t
        = (o.outcome except names,
            { t with removals := t.removals ++ o.attempts except names }) := by
  intro names
  induction names with
  | nil => intro t; simp [system.Lclearxattrs.loop, Oracle.outcome, Oracle.attempts]
  | cons n rest ih =>
    intro t
    rw [system.Lclearxattrs.loop]
    by_cases hex : n ∈ except
    · rw [if_pos hex, ih]
      simp [Oracle.outcome, Oracle.attempts, Oracle.fatal, hex]
    · rw [if_neg hex, scripted_remove]
      cases hrem : o.remove n with
      | none =>
        simp only [ih]
        simp [Oracle.outcome, Oracle.attempts, Oracle.fatal, hex, hrem]
      | some e =>
        by_cases hp : isPermission e = true
        · simp only [hp, if_true, ih]
          simp [Oracle.outcome, Oracle.attempts, Oracle.fatal, hex, hrem, hp]
        · simp only [hp]
          simp [Oracle.outcome, Oracle.attempts, Oracle.fatal, hex, hrem, hp]

theorem outcome_error_iff (o : Oracle) (except : List Name) (names : List Name) :
    (∃ err, o.outcome except names = .error err) ↔
      ∃ name ∈ names, name ∉ except ∧ ∃ e, o.remove name = some e ∧ isPermission e = false := by
  have hf : ∀ name, o.fatal except name = true ↔
      (name ∉ except ∧ ∃ e, o.remove name = some e ∧ isPermission e = false) := by
    intro name
    cases h : o.remove name <;> simp [Oracle.fatal, h]
  constructor
  · rintro ⟨err, h⟩
    simp only [Oracle.outcome] at h
    cases hfind : names.find? (o.fatal except) with
    | none => simp [hfind] at h
    | some name =>
      exact ⟨name, List.mem_of_find?_eq_some hfind, (hf name).1 (List.find?_some hfind)⟩
  · rintro ⟨name, hmem, hrest⟩
    simp only [Oracle.outcome]
    cases hfind : names.find? (o.fatal except) with
    | none =>
      have := List.find?_eq_none.1 hfind name hmem
      exact absurd ((hf name).2 hrest) this
    | some n => exact ⟨_, rfl⟩

theorem attempts_no_fatal (o : Oracle) (except : List Name) (names : List Name)
    (h : ∀ name ∈ names, o.fatal except name = false) :
    o.outcome except names = .ok () ∧
      o.attempts except names = names.filter (fun name => !decide (name ∈ except)) := by
  have hfind : names.find? (o.fatal except) = none := by
    rw [List.find?_eq_none]
    intro x hx
    simp [h x hx]
  have htake : names.takeWhile (fun name => !o.fatal except name) = names := by
    rw [List.takeWhile_eq_self_iff]
    intro x hx
    simp [h x hx]
  simp [Oracle.outcome, Oracle.attempts, hfind, htake]

theorem attempts_first_fatal (o : Oracle) (except : List Name) (pre post : List Name)
    (name : Name) (e : Errno) (hpre : ∀ n ∈ pre, o.fatal except n = false)
    (hex : name ∉ except) (hrem : o.remove name = some e) (hperm : isPermission e = false) :
    o.outcome except (pre ++ name :: post)
        = .error (.wrapped "lclearxattrs: remove xattr" (.errno e)) ∧
      o.attempts except (pre ++ name :: post)
        = pre.filter (fun n => !decide (n ∈ except)) ++ [name] := by
  have hfatal : o.fatal except name = true := by
    simp [Oracle.fatal, hex, hrem, hperm]
  have hfind : ∀ l : List Name, (∀ n ∈ l, o.fatal except n = false) →
      (l ++ name :: post).find? (o.fatal except) = some name := by
    intro l
    induction l with
    | nil => intro _; simp [hfatal]
    | cons n l ih =>
      intro hl
      have hn := hl n (List.mem_cons_self _ _)
      simp only [List.cons_append, List.find?_cons, hn]
      exact ih (fun m hm => hl m (List.mem_cons_of_mem _ hm))
  have htake : ∀ l : List Name, (∀ n ∈ l, o.fatal except n = false) →
      (l ++ name :: post).takeWhile (fun n => !o.fatal except n) = l := by
    intro l
    induction l with
    | nil => intro _; simp [hfatal]
    | cons n l ih =>
      intro hl
      have hn := hl n (List.mem_cons_self _ _)
      simp only [List.cons_append, List.takeWhile_cons, hn, Bool.not_false, if_true]
      rw [ih (fun m hm => hl m (List.mem_cons_of_mem _ hm))]
  simp [Oracle.outcome, Oracle.attempts, hfind pre hpre, htake pre hpre, hrem]

/-- C1: the error semantics of `Lclearxattrs` over an oracle of kernel
answers.  When the listing fails, the wrapped error of the listing is
returned and nothing is removed.  When the listing gives `names`, the call
returns an error exactly when the removal of some name outside `except`
fails with an error that is not a permission error.  When no removal fails
in that way, every name outside `except` is handed to `removexattr`,
permission errors notwithstanding, and the call succeeds; at the first name
whose removal fails in that way the wrapped error of that removal is
returned, and that name is the last one handed to `removexattr`. -/
theorem clearxattrs_errors (o : Oracle) (path : String) (except : List Name) (fuel : Nat)
    (t : Trace) :
    (∀ e t1, system.Llistxattr (scripted o) path fuel t = (some (.error e), t1) →
      system.Lclearxattrs (scripted o) path except fuel t
        = (some (.error (.wrapped "lclearxattrs: get list" (.errno e))), t1)) ∧
    (∀ names t1, system.Llistxattr (scripted o) path fuel t = (some (.ok names), t1) →
      ∃ r removed, system.Lclearxattrs (scripted o) path except fuel t
          = (some r, { t1 with removals := t1.removals ++ removed }) ∧
        ((∃ err, r = .error err) ↔
          ∃ name ∈ names, name ∉ except ∧
            ∃ e, o.remove name = some e ∧ isPermission e = false) ∧
        ((∀ name ∈ names, o.fatal except name = false) →
          r = .ok () ∧ removed = names.filter (fun name => !decide (name ∈ except))) ∧
        (∀ pre post name e, names = pre ++ name :: post →
          (∀ n ∈ pre, o.fatal except n = false) →
          name ∉ except → o.remove name = some e → isPermission e = false →
          r = .error (.wrapped "lclearxattrs: remove xattr" (.errno e)) ∧
          removed = pre.filter (fun n => !decide (n ∈ except)) ++ [name])) := by
  constructor
  · intro e t1 h
    simp only [system.Lclearxattrs, h]
  · intro names t1 h
    refine ⟨o.outcome except names, o.attempts except names, ?_, ?_, ?_, ?_⟩
    · simp only [system.Lclearxattrs, h, clear_loop_scripted]
    · exact outcome_error_iff o except names
    · exact attempts_no_fatal o except names
    · intro pre post name e hn hpre hex hrem hperm
      subst hn
      exact attempts_first_fatal o except pre post name e hpre hex hrem hperm

/-- C1, at a concrete oracle: the file has the names `a`, `b`, `c`, `d`;
the refusal to remove `a` is swallowed, `b` is removed, the failure on `c`
is returned, and `d` is never handed to `removexattr`. -/
theorem clearxattrs_errors_witness :
    system.Lclearxattrs (scripted clearOracle) "rootfs/etc" [] 1 Trace.start
      = (some (.error (.wrapped "lclearxattrs: remove xattr" (.errno ENODATA))),
          ⟨2, 1, 1, [[0x61], [0x62], [0x63]]⟩) := by
  obtain ⟨r, removed, h, -, -, hfatal⟩ :=
    (clearxattrs_errors clearOracle "rootfs/etc" [] 1 Trace.start).2
      [[0x61], [0x62], [0x63], [0x64]] ⟨2, 1, 1, []⟩ rfl
  obtain ⟨hr, hrem⟩ := hfatal [[0x61], [0x62]] [[0x64]] [0x63] ENODATA rfl
    (by decide) (by decide) rfl rfl
  rw [h, hr, hrem]
  rfl

/-! ## Lemmas: `Lclearxattrs` on a file system -/

theorem kernelRead_exact (d : List Byte) :
    kernelRead (.ok d) (some (List.replicate d.length 0)) = ⟨.ok d.length, d⟩ := by
  simp only [kernelRead, Option.getD_some, List.length_replicate, lt_irrefl, if_false,
    List.drop_replicate, Nat.sub_self, List.replicate_zero, List.append_nil]
  split
  · rename_i h
    rw [List.length_eq_zero.1 h]
    rfl
  · rfl

theorem onDisk_list (deny : String → Name → Option Errno) (path : String) (fuel : Nat)
    (d : Disk) (attrs : List (Name × List Byte)) (hfile : d.files path = some attrs)
    (hvalid : ∀ name ∈ attrs.map Prod.fst, name ≠ [] ∧ (0 : Byte) ∉ name) :
    system.Llistxattr (onDisk deny) path (fuel + 1) d
      = (some (.ok (attrs.map Prod.fst)), d) := by
  rw [system.Llistxattr, system.Llistxattr.loop]
  simp only [onDisk, hfile, kernelRead_size, kernelRead_exact, names_encode _ hvalid]

theorem onDisk_remove (deny : String → Name → Option Errno) (path : String) (name : Name)
    (d : Disk) :
    (onDisk deny).Lremovexattr path name d =
      match d.files path with
      | none => (some ENOENT, { d with removals := d.removals ++ [(path, name)] })
      | some attrs =>
        match deny path name with
        | some e => (some e, { d with removals := d.removals ++ [(path, name)] })
        | none =>
          if attrs.lookup name = none then
            (some ENODATA, { d with removals := d.removals ++ [(path, name)] })
          else
            (none,
              { files := fun p =>
                  if p = path then some (attrs.filter (fun a => a.1 != name)) else d.files p,
                removals := d.removals ++ [(path, name)] }) := rfl

theorem onDisk_clear_loop (deny : String → Name → Option Errno)
    (hdeny : ∀ path name e, deny path name = some e → isPermission e = true)
    (path : String) (except : List Name) :
    ∀ (names : List Name) (d : Disk) (attrs : List (Name × List Byte)),
      d.files path = some attrs → names.Nodup →
      (∀ name ∈ names, name ∈ attrs.map Prod.fst) →
      system.Lclearxattrs.loop (onDisk deny) path except names d
        = (.ok (),
            { files := fun p =>
                if p = path then
                  some (attrs.filter
                    (fun a => !decide (a.1 ∈ names) || stays (deny path) except a.1))
                else d.files p,
              removals := d.removals
                ++ (names.filter (fun name => !decide (name ∈ except))).map
                    (fun name => (path, name)) }) := by
  intro names
  induction names with
  | nil =>
    intro d attrs hfile _ _
    simp only [system.Lclearxattrs.loop, List.not_mem_nil, decide_False, Bool.not_false,
      Bool.true_or, List.filter_true, List.filter_nil, List.map_nil, List.append_nil]
    congr 1
    cases d with
    | mk files removals =>
      simp only [Disk.mk.injEq, and_true]
      funext p
      by_cases hp : p = path
      · simp only [hp, if_true]; exact hfile
      · simp only [hp, if_false]
  | cons n rest ih =>
    intro d attrs hfile hnd hsub
    have hnd1 : rest.Nodup := (List.nodup_cons.1 hnd).2
    have hn : n ∉ rest := (List.nodup_cons.1 hnd).1
    have hsub1 : ∀ name ∈ rest, name ∈ attrs.map Prod.fst :=
      fun name hm => hsub name (List.mem_cons_of_mem _ hm)
    rw [system.Lclearxattrs.loop]
    by_cases hex : n ∈ except
    · rw [if_pos hex, ih d attrs hfile hnd1 hsub1]
      congr 2
      · funext p
        by_cases hp : p = path
        · simp only [hp, if_true]
          congr 1
          apply List.filter_congr
          intro a _
          by_cases ha : a.1 = n
          · simp [ha, stays, hex]
          · simp [ha]
        · simp only [hp, if_false]
      · simp [List.filter_cons, hex]
    · rw [if_neg hex, onDisk_remove]
      simp only [hfile]
      cases hd : deny path n with
      | some e =>
        have hp := hdeny path n e hd
        simp only [hp, if_true]
        rw [ih ⟨d.files, d.removals ++ [(path, n)]⟩ attrs hfile hnd1 hsub1]
        congr 2
        · funext p
          by_cases hp : p = path
          · simp only [hp, if_true]
            congr 1
            apply List.filter_congr
            intro a _
            by_cases ha : a.1 = n
            · simp [ha, stays, hd]
            · simp [ha]
          · simp only [hp, if_false]
        · simp [List.filter_cons, hex]
      | none =>
        have hlook : attrs.lookup n ≠ none := by
          have hmem := hsub n (List.mem_cons_self _ _)
          rw [List.mem_map] at hmem
          obtain ⟨a, ha, rfl⟩ := hmem
          intro hnone
          rw [List.lookup_eq_none_iff] at hnone
          exact absurd (hnone a ha) (by simp)
        simp only [hlook, if_false]
        rw [ih _ (attrs.filter (fun a => a.1 != n)) (by simp) hnd1 (by
          intro name hm
          have h1 := hsub1 name hm
          rw [List.mem_map] at h1 ⊢
          obtain ⟨a, ha, rfl⟩ := h1
          refine ⟨a, List.mem_filter.2 ⟨ha, ?_⟩, rfl⟩
          have : a.1 ≠ n := fun h => hn (h ▸ hm)
          simpa using this)]
        congr 2
        · funext p
          by_cases hp : p = path
          · simp only [hp, if_true]
            congr 1
            rw [List.filter_filter]
            apply List.filter_congr
            intro a _
            by_cases ha : a.1 = n
            · simp [ha, stays, hd, hex]
            · simp [ha]
          · simp only [hp, if_false]
        · simp [List.filter_cons, hex]

theorem onDisk_clear (deny : String → Name → Option Errno)
    (hdeny : ∀ path name e, deny path name = some e → isPermission e = true)
    (path : String) (except : List Name) (fuel : Nat) (d : Disk)
    (attrs : List (Name × List Byte)) (hfile : d.files path = some attrs)
    (hnodup : (attrs.map Prod.fst).Nodup)
    (hvalid : ∀ name ∈ attrs.map Prod.fst, name ≠ [] ∧ (0 : Byte) ∉ name) :
    system.Lclearxattrs (onDisk deny) path except (fuel + 1) d
      = (some (.ok ()),
          { files := fun p =>
              if p = path then some (attrs.filter (fun a => stays (deny path) except a.1))
              else d.files p,
            removals := d.removals
              ++ ((attrs.map Prod.fst).filter (fun name => !decide (name ∈ except))).map
                  (fun name => (path, name)) }) := by
  rw [system.Lclearxattrs, onDisk_list deny path fuel d attrs hfile hvalid]
  simp only []
  rw [onDisk_clear_loop deny hdeny path except (attrs.map Prod.fst) d attrs hfile hnodup
    (fun _ h => h)]
  simp only [Prod.mk.injEq, Disk.mk.injEq, true_and, and_true]
  funext p
  by_cases hp : p = path
  · simp only [hp, if_true]
    congr 1
    apply List.filter_congr
    intro a ha
    have : a.1 ∈ attrs.map Prod.fst := List.mem_map.2 ⟨a, ha, rfl⟩
    simp [this]
  · simp only [hp, if_false]

/-- C2: the state of the file at `path` after `Lclearxattrs(path, except)`,
on a file system that nobody else touches.  For every attribute set of that
file (names distinct, non-empty and without NUL) and every set of names whose
removal is refused with a permission error, `Lclearxattrs` succeeds; the file
at `path` keeps exactly its attributes whose names are in `except` or
refused, and every other file is as before; a following `Llistxattr(path)`
returns exactly those names, in their order; the calls of `removexattr` are
those for the names outside `except`, each on `path`, so no name of `except`
is handed to it; and with an empty `except` and nothing refused the
following `Llistxattr(path)` returns the empty list. -/
theorem clearxattrs_post_state (deny : String → Name → Option Errno)
    (hdeny : ∀ path name e, deny path name = some e → isPermission e = true)
    (path : String) (except : List Name) (fuel : Nat) (d : Disk)
    (attrs : List (Name × List Byte)) (hfile : d.files path = some attrs)
    (hnodup : (attrs.map Prod.fst).Nodup)
    (hvalid : ∀ name ∈ attrs.map Prod.fst, name ≠ [] ∧ (0 : Byte) ∉ name) :
    ∃ d1 : Disk,
      system.Lclearxattrs (onDisk deny) path except (fuel + 1) d = (some (.ok ()), d1) ∧
      d1.files path
        = some (attrs.filter (fun a => decide (a.1 ∈ except) || (deny path a.1).isSome)) ∧
      (∀ q, q ≠ path → d1.files q = d.files q) ∧
      system.Llistxattr (onDisk deny) path (fuel + 1) d1
        = (some (.ok ((attrs.map Prod.fst).filter
            (fun name => decide (name ∈ except) || (deny path name).isSome))), d1) ∧
      d1.removals = d.removals
        ++ ((attrs.map Prod.fst).filter (fun name => !decide (name ∈ except))).map
            (fun name => (path, name)) ∧
      (∀ call ∈ d1.removals, call ∈ d.removals ∨ (call.1 = path ∧ call.2 ∉ except)) ∧
      (except = [] → (∀ name, deny path name = none) →
        system.Llistxattr (onDisk deny) path (fuel + 1) d1 = (some (.ok []), d1)) := by
  have hmap : (attrs.filter (fun a => stays (deny path) except a.1)).map Prod.fst
      = (attrs.map Prod.fst).filter
          (fun name => decide (name ∈ except) || (deny path name).isSome) := by
    rw [List.filter_map]
    rfl
  have hclear := onDisk_clear deny hdeny path except fuel d attrs hfile hnodup hvalid
  obtain ⟨d1, hd1⟩ : ∃ d1 : Disk, Disk.mk
      (fun p =>
        if p = path then some (attrs.filter (fun a => stays (deny path) except a.1))
        else d.files p)
      (d.removals
        ++ ((attrs.map Prod.fst).filter (fun name => !decide (name ∈ except))).map
            (fun name => (path, name))) = d1 := ⟨_, rfl⟩
  rw [hd1] at hclear
  have hfile1 : d1.files path = some (attrs.filter (fun a => stays (deny path) except a.1)) := by
    rw [← hd1]; simp
  have hlist : system.Llistxattr (onDisk deny) path (fuel + 1) d1
      = (some (.ok ((attrs.map Prod.fst).filter
          (fun name => decide (name ∈ except) || (deny path name).isSome))), d1) := by
    rw [onDisk_list deny path fuel d1 _ hfile1 (by
      intro name hname
      rw [hmap] at hname
      exact hvalid name (List.mem_filter.1 hname).1), hmap]
  refine ⟨d1, hclear, hfile1, ?_, hlist, ?_, ?_, ?_⟩
  · intro q hq
    rw [← hd1]; simp [hq]
  · rw [← hd1]
  · intro call hcall
    rw [← hd1] at hcall
    simp only [List.mem_append, List.mem_map, List.mem_filter] at hcall
    rcases hcall with h | ⟨name, ⟨-, hn⟩, rfl⟩
    · exact Or.inl h
    · exact Or.inr ⟨rfl, by simpa using hn⟩
  · intro hex hno
    rw [hlist]
    simp [hex, hno]

/-- C2, at a concrete file system: of the attributes `a`, `b`, `c` of
`rootfs/etc`, with `c` in `except` and the removal of `a` refused, `a` and
`c` stay; `rootfs/bin` keeps its attribute. -/
theorem clearxattrs_post_state_witness :
    ∃ d1 : Disk,
      system.Lclearxattrs (onDisk sampleDeny) "rootfs/etc" [[0x63]] 1 sampleDisk
        = (some (.ok ()), d1) ∧
      d1.files "rootfs/etc" = some [([0x61], [1]), ([0x63], [2, 3])] ∧
      d1.files "rootfs/bin" = some [([0x61], [4])] ∧
      system.Llistxattr (onDisk sampleDeny) "rootfs/etc" 1 d1
        = (some (.ok [[0x61], [0x63]]), d1) ∧
      d1.removals = [("rootfs/etc", [0x61]), ("rootfs/etc", [0x62])] := by
  obtain ⟨d1, h1, h2, h3, h4, h5, -, -⟩ :=
    clearxattrs_post_state sampleDeny
      (by
        intro path name e h
        unfold sampleDeny at h
        split at h
        · cases h; rfl
        · cases h)
      "rootfs/etc" [[0x63]] 0 sampleDisk
      [([0x61], [1]), ([0x62], []), ([0x63], [2, 3])] rfl (by decide) (by decide)
  exact ⟨d1, h1, h2, (h3 "rootfs/bin" (by decide)).trans rfl, h4, h5⟩

/-! ## The claims about `mutate/compress.go` -/

/-- C5, as stated, fails: after `NoopCompressor.Compress` on a stream that
yields three bytes and ends cleanly, the returned stream is that stream, and
`BytesRead()` is `-1`, not `3`. -/
theorem noop_bytesRead_counterexample :
    (mutate.noopCompressor.mk).Compress ⟨[1, 2, 3], none⟩ = .ok ⟨[1, 2, 3], none⟩ ∧
    (mutate.noopCompressor.mk).BytesRead = -1 ∧
    (mutate.noopCompressor.mk).BytesRead ≠ (([1, 2, 3] : List Byte).length : Int) := by
  refine ⟨rfl, rfl, ?_⟩
  decide

/-- C5, amended: for the gzip and the zstd compressor, whenever `Compress`
returns a stream that its reader reads to a clean end-of-stream, `BytesRead()`
is afterwards the number of bytes the input stream yielded; with a library
that does not fail and an input that yields `P` and ends cleanly that is the
case, so `BytesRead()` is `len(P)`.  The no-op compressor does not count:
its `BytesRead()` is `-1`. -/
theorem bytesRead_after_drain (lib : mutate.Library) (reader : mutate.Reader) :
    (∀ (gz gz1 : mutate.gzipCompressor) (events : List mutate.Event),
      gz.Compress lib reader = (.ok none, gz1, events) →
      gz1.BytesRead = (reader.data.length : Int)) ∧
    (∀ (zs zs1 : mutate.zstdCompressor) (events : List mutate.Event),
      zs.Compress lib reader = (.ok none, zs1, events) →
      zs1.BytesRead = (reader.data.length : Int)) ∧
    (∀ (gz : mutate.gzipCompressor) (P : List Byte),
      (gz.Compress mutate.Library.sound ⟨P, none⟩).1 = .ok none ∧
      (gz.Compress mutate.Library.sound ⟨P, none⟩).2.1.BytesRead = (P.length : Int)) ∧
    (∀ (zs : mutate.zstdCompressor) (P : List Byte),
      (zs.Compress mutate.Library.sound ⟨P, none⟩).1 = .ok none ∧
      (zs.Compress mutate.Library.sound ⟨P, none⟩).2.1.BytesRead = (P.length : Int)) ∧
    (∀ nc : mutate.noopCompressor, nc.BytesRead = -1) := by
  obtain ⟨setup, write, writerClose, pipeClose⟩ := lib
  obtain ⟨data, err⟩ := reader
  refine ⟨?_, ?_, ?_, ?_, fun _ => rfl⟩
  · intro gz gz1 events h
    cases setup <;> cases write <;> cases writerClose <;> cases pipeClose <;> cases err <;>
      simp [mutate.gzipCompressor.Compress, mutate.gzipCompressor.task, mutate.Copy,
        mutate.pipeEnd, mutate.gzipCompressor.BytesRead] at h ⊢ <;>
      (obtain ⟨h1, -⟩ := h; rw [← h1])
  · intro zs zs1 events h
    cases setup <;> cases write <;> cases writerClose <;> cases pipeClose <;> cases err <;>
      simp [mutate.zstdCompressor.Compress, mutate.zstdCompressor.task, mutate.Copy,
        mutate.pipeEnd, mutate.zstdCompressor.BytesRead] at h ⊢ <;>
      (obtain ⟨h1, -⟩ := h; rw [← h1])
  · intro gz P
    exact ⟨rfl, rfl⟩
  · intro zs P
    exact ⟨rfl, rfl⟩

/-- C5, amended, at a concrete input: gzip over a three-byte stream. -/
theorem bytesRead_after_drain_witness :
    (mutate.gzipCompressor.mk 0).Compress mutate.Library.sound ⟨[1, 2, 3], none⟩
      = (.ok none, ⟨3⟩, [.copy, .writerClose, .pipeClose]) ∧
    (mutate.gzipCompressor.mk 3).BytesRead = 3 :=
  ⟨rfl, (bytesRead_after_drain mutate.Library.sound ⟨[1, 2, 3], none⟩).1 ⟨0⟩ ⟨3⟩
    [.copy, .writerClose, .pipeClose] rfl⟩

/-- C6: the close discipline of the gzip and of the zstd background task,
as a sequential program over the outcomes of the copy, of the writer `Close`
and of the pipe `Close`.  The pipe is closed without an error only if the
copy succeeded and the writer was then closed successfully, the writer
`Close` coming before the pipe `Close`; if the copy fails, or the writer
`Close` fails, the pipe is closed with an error that wraps the failure, so
that the reader meets that error and not end-of-stream; in every case the
pipe is closed exactly once and only log lines follow. -/
theorem close_discipline (lib : mutate.Library) (reader : mutate.Reader)
    (gz : mutate.gzipCompressor) (zs : mutate.zstdCompressor) :
    mutate.closeDiscipline (gz.task lib reader).2 lib reader "close gzip writer" ∧
    mutate.closeDiscipline (zs.task lib reader).2 lib reader "close zstd writer" := by
  obtain ⟨setup, write, writerClose, pipeClose⟩ := lib
  obtain ⟨data, err⟩ := reader
  have hfirst : ∀ after : List mutate.Event,
      mutate.writerClosedFirst (.copy :: .writerClose :: .pipeClose :: after) := by
    intro after
    refine ⟨[.copy, .writerClose], after, rfl, by simp, ?_⟩
    intro e he
    simp only [List.mem_cons, List.mem_singleton, List.not_mem_nil, or_false] at he
    rcases he with rfl | rfl <;> rfl
  constructor
  · cases write <;> cases writerClose <;> cases pipeClose <;> cases err <;>
      simp [mutate.closeDiscipline, mutate.gzipCompressor.task, mutate.Copy, mutate.pipeEnd,
        mutate.Event.closesPipe, mutate.Event.isLog, hfirst]
  · cases write <;> cases writerClose <;> cases pipeClose <;> cases err <;>
      simp [mutate.closeDiscipline, mutate.zstdCompressor.task, mutate.Copy, mutate.pipeEnd,
        mutate.Event.closesPipe, mutate.Event.isLog, hfirst]

/-- C6, at a concrete input: the writer `Close` of gzip fails with `EPERM`;
the reader of the pipe meets the wrapped error. -/
theorem close_discipline_witness :
    (mutate.gzipCompressor.task ⟨0⟩ ⟨none, none, some (.errno EPERM), none⟩ ⟨[1, 2], none⟩).2
      = [.copy, .writerClose,
          .warnf "gzip compress: could not close gzip writer" (.errno EPERM),
          .pipeCloseWithError (.wrapped "close gzip writer" (.errno EPERM))] ∧
    mutate.pipeEnd
        (mutate.gzipCompressor.task ⟨0⟩ ⟨none, none, some (.errno EPERM), none⟩ ⟨[1, 2], none⟩).2
      = some (.wrapped "close gzip writer" (.errno EPERM)) :=
  ⟨rfl, ((close_discipline ⟨none, none, some (.errno EPERM), none⟩ ⟨[1, 2], none⟩ ⟨0⟩ ⟨0⟩).1.2.2.1
    (.errno EPERM) rfl rfl).1⟩

/-! ## The claims about `cmd/umoci/unpack.go` -/

theorem extract_other_type (w : cmd.World) (bundlePath : String) (meta : cmd.UmociMeta)
    (blob : cmd.Blob) (h : blob.MediaType ≠ cmd.MediaTypeImageManifest) :
    (cmd.unpack.extract w bundlePath meta blob).1 ≠ none ∧
      (cmd.unpack.extract w bundlePath meta blob).2 = [] := by
  have hb : (blob.MediaType != cmd.MediaTypeImageManifest) = true := by simpa using h
  simp [cmd.unpack.extract, hb]

theorem resolve_guards (w : cmd.World) (fromName bundlePath version : String)
    (opts : cmd.MapOptions) :
    ((∃ e ∈ (cmd.unpack.resolve w fromName bundlePath version opts).2, e.writes = true) →
      ∃ d blob, w.ResolveReference fromName = .ok [d] ∧ w.FromDescriptor d = .ok blob ∧
        blob.MediaType = cmd.MediaTypeImageManifest) ∧
    (∀ ds, w.ResolveReference fromName = .ok ds → ds.length ≠ 1 →
      cmd.unpack.resolve w fromName bundlePath version opts
        = (some (.msg ("tag is ambiguous: " ++ fromName)), [.resolveReference fromName])) ∧
    (∀ d blob, w.ResolveReference fromName = .ok [d] → w.FromDescriptor d = .ok blob →
      blob.MediaType ≠ cmd.MediaTypeImageManifest →
      (cmd.unpack.resolve w fromName bundlePath version opts).1 ≠ none ∧
      (cmd.unpack.resolve w fromName bundlePath version opts).2
        = [.resolveReference fromName, .fromDescriptor d, .closeBlob]) := by
  refine ⟨?_, ?_, ?_⟩
  · rintro ⟨e, he, hw⟩
    unfold cmd.unpack.resolve at he
    cases hres : w.ResolveReference fromName with
    | error err =>
      simp only [hres, List.mem_singleton] at he
      subst he; cases hw
    | ok ds =>
      match ds, hres with
      | [], hres =>
        simp only [hres, List.mem_singleton] at he
        subst he; cases hw
      | _ :: _ :: _, hres =>
        simp only [hres, List.mem_singleton] at he
        subst he; cases hw
      | [d], hres =>
        simp only [hres] at he
        cases hblob : w.FromDescriptor d with
        | error err =>
          simp only [hblob, List.mem_cons, List.mem_singleton, List.not_mem_nil, or_false] at he
          rcases he with rfl | rfl <;> cases hw
        | ok blob =>
          refine ⟨d, blob, rfl, hblob, ?_⟩
          by_contra hne
          have h2 := (extract_other_type w bundlePath ⟨version, d, opts⟩ blob hne).2
          simp only [hblob, h2, List.append_nil, List.mem_cons, List.mem_singleton,
            List.not_mem_nil, or_false, List.cons_append, List.nil_append] at he
          rcases he with rfl | rfl | rfl <;> cases hw
  · intro ds hres hlen
    unfold cmd.unpack.resolve
    match ds, hres, hlen with
    | [], hres, _ => simp only [hres]
    | _ :: _ :: _, hres, _ => simp only [hres]
    | [d], _, hlen => exact absurd rfl hlen
  · intro d blob hres hblob hne
    obtain ⟨h1, h2⟩ := extract_other_type w bundlePath ⟨version, d, opts⟩ blob hne
    unfold cmd.unpack.resolve
    simp only [hres, hblob, h2]
    exact ⟨h1, rfl⟩



theorem extract_manifest (w : cmd.World) (bundlePath : String) (meta : cmd.UmociMeta)
    (m : cmd.Manifest) :
    cmd.Effect.mkdirAll bundlePath ∈
        (cmd.unpack.extract w bundlePath meta ⟨cmd.MediaTypeImageManifest, .manifest m⟩).2 ∧
      (w.MkdirAll bundlePath = none →
        cmd.Effect.unpackManifest bundlePath m meta.MapOptions ∈
          (cmd.unpack.extract w bundlePath meta ⟨cmd.MediaTypeImageManifest, .manifest m⟩).2) := by
  unfold cmd.unpack.extract
  simp only [bne_self_eq_false, Bool.false_eq_true, if_false]
  cases h1 : w.MkdirAll bundlePath with
  | some e => simp
  | none =>
    cases h2 : w.UnpackManifest bundlePath m meta.MapOptions with
    | some e => simp
    | none =>
      cases h3 : w.Walk (w.Join bundlePath cmd.RootfsName) meta.MapOptions.Rootless with
      | some e => simp
      | none =>
        cases h4 : w.OpenFile (cmd.mtreePath w bundlePath meta.From.Digest) with
        | some e => simp
        | none =>
          cases h5 : w.WriteTo (cmd.mtreePath w bundlePath meta.From.Digest) with
          | some e => simp
          | none =>
            cases h6 : w.WriteBundleMeta bundlePath meta with
            | some e => simp
            | none => simp


theorem unpack_shape (w : cmd.World) (ctx : cmd.Context) :
    (cmd.unpack w ctx).2 = [] ∧ (cmd.unpack w ctx).1 ≠ none ∨
    (cmd.unpack w ctx).2 = [.casOpen ctx.imagePath] ∧ (cmd.unpack w ctx).1 ≠ none ∨
    ∃ opts, cmd.unpack w ctx =
      ((cmd.unpack.resolve w ctx.imageTag ctx.bundle ctx.Version opts).1,
        [.casOpen ctx.imagePath]
          ++ (cmd.unpack.resolve w ctx.imageTag ctx.bundle ctx.Version opts).2
          ++ [.closeEngine]) := by
  cases hu : cmd.parseMappings w "--uid-map" (cmd.rootlessDefaults w ctx).uidMap with
  | error err => left; simp [cmd.unpack, hu]
  | ok uids =>
    cases hg : cmd.parseMappings w "--gid-map" (cmd.rootlessDefaults w ctx).gidMap with
    | error err => left; simp [cmd.unpack, hu, hg]
    | ok gids =>
      cases ho : w.Open ctx.imagePath with
      | some err => right; left; simp [cmd.unpack, hu, hg, ho]
      | none =>
        right; right
        refine ⟨⟨uids, gids, ctx.rootless⟩, ?_⟩
        simp only [cmd.unpack, hu, hg, ho]

theorem extract_openFile (w : cmd.World) (bundlePath : String) (meta : cmd.UmociMeta)
    (blob : cmd.Blob) (p : String)
    (h : cmd.Effect.openFile p ∈ (cmd.unpack.extract w bundlePath meta blob).2) :
    p = cmd.mtreePath w bundlePath meta.From.Digest := by
  obtain ⟨mediaType, data⟩ := blob
  unfold cmd.unpack.extract at h
  by_cases hm : (mediaType != cmd.MediaTypeImageManifest) = true
  · simp [hm] at h
  · simp only [hm, Bool.false_eq_true, if_false] at h
    cases data with
    | other => simp at h
    | manifest m =>
      simp only at h
      cases h1 : w.MkdirAll bundlePath with
      | some e => simp [h1] at h
      | none =>
        cases h2 : w.UnpackManifest bundlePath m meta.MapOptions with
        | some e => simp [h1, h2] at h
        | none =>
          cases h3 : w.Walk (w.Join bundlePath cmd.RootfsName) meta.MapOptions.Rootless with
          | some e => simp [h1, h2, h3] at h
          | none =>
            cases h4 : w.OpenFile (cmd.mtreePath w bundlePath meta.From.Digest) with
            | some e => simpa [h1, h2, h3, h4] using h
            | none =>
              cases h5 : w.WriteTo (cmd.mtreePath w bundlePath meta.From.Digest) with
              | some e => simpa [h1, h2, h3, h4, h5] using h
              | none =>
                cases h6 : w.WriteBundleMeta bundlePath meta with
                | some e => simpa [h1, h2, h3, h4, h5, h6] using h
                | none => simpa [h1, h2, h3, h4, h5, h6] using h

theorem resolve_openFile (w : cmd.World) (fromName bundlePath version : String)
    (opts : cmd.MapOptions) (p : String)
    (h : cmd.Effect.openFile p ∈ (cmd.unpack.resolve w fromName bundlePath version opts).2) :
    ∃ d, w.ResolveReference fromName = .ok [d] ∧ p = cmd.mtreePath w bundlePath d.Digest := by
  unfold cmd.unpack.resolve at h
  cases hres : w.ResolveReference fromName with
  | error err => simp [hres] at h
  | ok ds =>
    match ds, hres with
    | [], hres => simp [hres] at h
    | _ :: _ :: _, hres => simp [hres] at h
    | [d], hres =>
      simp only [hres] at h
      refine ⟨d, rfl, ?_⟩
      cases hblob : w.FromDescriptor d with
      | error err => simp [hblob] at h
      | ok blob =>
        simp only [hblob, List.mem_append, List.mem_cons, List.mem_singleton, List.not_mem_nil,
          or_false, false_or, reduceCtorEq] at h
        exact extract_openFile w bundlePath ⟨version, d, opts⟩ blob p h

theorem unpack_openFile (w : cmd.World) (ctx : cmd.Context) (p : String)
    (h : cmd.Effect.openFile p ∈ (cmd.unpack w ctx).2) :
    ∃ d, w.ResolveReference ctx.imageTag = .ok [d] ∧ p = cmd.mtreePath w ctx.bundle d.Digest := by
  rcases unpack_shape w ctx with ⟨h2, -⟩ | ⟨h2, -⟩ | ⟨opts, h2⟩
  · rw [h2] at h; cases h
  · rw [h2] at h; simp at h
  · rw [h2] at h
    simp only [List.mem_append, List.mem_cons, List.mem_singleton, List.not_mem_nil,
      or_false, false_or, reduceCtorEq] at h
    exact resolve_openFile w ctx.imageTag ctx.bundle ctx.Version opts p h

/-- C7: the guards of `unpack`.  A call that creates or writes something
under the bundle path (`MkdirAll`, `UnpackManifest`, the snapshot, the
metadata) is made only if `ResolveReference` returned exactly one descriptor
and the media type of the fetched blob is the image-manifest type.  If the
number of descriptors is not one, or the media type is another one, `unpack`
returns an error and makes no such call; when nothing failed before, the
first case returns the error of the ambiguous tag right after
`ResolveReference`. -/
theorem unpack_guards (w : cmd.World) (ctx : cmd.Context) :
    ((∃ e ∈ (cmd.unpack w ctx).2, e.writes = true) →
      ∃ d blob, w.ResolveReference ctx.imageTag = .ok [d] ∧ w.FromDescriptor d = .ok blob ∧
        blob.MediaType = cmd.MediaTypeImageManifest) ∧
    (∀ ds, w.ResolveReference ctx.imageTag = .ok ds → ds.length ≠ 1 →
      (cmd.unpack w ctx).1 ≠ none ∧ ∀ e ∈ (cmd.unpack w ctx).2, e.writes = false) ∧
    (∀ d blob, w.ResolveReference ctx.imageTag = .ok [d] → w.FromDescriptor d = .ok blob →
      blob.MediaType ≠ cmd.MediaTypeImageManifest →
      (cmd.unpack w ctx).1 ≠ none ∧ ∀ e ∈ (cmd.unpack w ctx).2, e.writes = false) ∧
    (∀ ds uids gids,
      cmd.parseMappings w "--uid-map" (cmd.rootlessDefaults w ctx).uidMap = .ok uids →
      cmd.parseMappings w "--gid-map" (cmd.rootlessDefaults w ctx).gidMap = .ok gids →
      w.Open ctx.imagePath = none →
      w.ResolveReference ctx.imageTag = .ok ds → ds.length ≠ 1 →
      cmd.unpack w ctx = (some (.msg ("tag is ambiguous: " ++ ctx.imageTag)),
        [.casOpen ctx.imagePath, .resolveReference ctx.imageTag, .closeEngine])) ∧
    (∀ d m uids gids,
      cmd.parseMappings w "--uid-map" (cmd.rootlessDefaults w ctx).uidMap = .ok uids →
      cmd.parseMappings w "--gid-map" (cmd.rootlessDefaults w ctx).gidMap = .ok gids →
      w.Open ctx.imagePath = none →
      w.ResolveReference ctx.imageTag = .ok [d] →
      w.FromDescriptor d = .ok ⟨cmd.MediaTypeImageManifest, .manifest m⟩ →
      cmd.Effect.mkdirAll ctx.bundle ∈ (cmd.unpack w ctx).2 ∧
      (w.MkdirAll ctx.bundle = none →
        cmd.Effect.unpackManifest ctx.bundle m ⟨uids, gids, ctx.rootless⟩
          ∈ (cmd.unpack w ctx).2)) := by
  have hshape := unpack_shape w ctx
  refine ⟨?_, ?_, ?_, ?_, ?_⟩
  · rintro ⟨e, he, hw⟩
    rcases hshape with ⟨h2, -⟩ | ⟨h2, -⟩ | ⟨opts, h⟩
    · rw [h2] at he; cases he
    · rw [h2, List.mem_singleton] at he; subst he; cases hw
    · rw [h] at he
      simp only [List.mem_append, List.mem_singleton] at he
      rcases he with (rfl | he) | rfl
      · cases hw
      · exact (resolve_guards w ctx.imageTag ctx.bundle ctx.Version opts).1 ⟨e, he, hw⟩
      · cases hw
  · intro ds hres hlen
    rcases hshape with ⟨h2, h1⟩ | ⟨h2, h1⟩ | ⟨opts, h⟩
    · exact ⟨h1, by rw [h2]; simp⟩
    · exact ⟨h1, by rw [h2]; simp [cmd.Effect.writes]⟩
    · have hr := (resolve_guards w ctx.imageTag ctx.bundle ctx.Version opts).2.1 ds hres hlen
      rw [h, hr]
      simp [cmd.Effect.writes]
  · intro d blob hres hblob hne
    rcases hshape with ⟨h2, h1⟩ | ⟨h2, h1⟩ | ⟨opts, h⟩
    · exact ⟨h1, by rw [h2]; simp⟩
    · exact ⟨h1, by rw [h2]; simp [cmd.Effect.writes]⟩
    · obtain ⟨hr1, hr2⟩ :=
        (resolve_guards w ctx.imageTag ctx.bundle ctx.Version opts).2.2 d blob hres hblob hne
      rw [h, hr2]
      exact ⟨hr1, by simp [cmd.Effect.writes]⟩
  · intro ds uids gids hu hg ho hres hlen
    simp only [cmd.unpack, hu, hg, ho]
    rw [(resolve_guards w ctx.imageTag ctx.bundle ctx.Version _).2.1 ds hres hlen]
    rfl
  · intro d m uids gids hu hg ho hres hblob
    obtain ⟨h1, h2⟩ := extract_manifest w ctx.bundle
      ⟨ctx.Version, d, ⟨uids, gids, ctx.rootless⟩⟩ m
    simp only [cmd.unpack, hu, hg, ho, cmd.unpack.resolve, hres, hblob]
    constructor
    · simp [List.mem_append, h1]
    · intro hm
      simp [List.mem_append, h2 hm]

/-- C7, at a concrete input: the tag resolves to two descriptors. -/
theorem unpack_guards_witness :
    cmd.unpack (cmd.sampleWorld [cmd.sampleDescriptor "sha256:aa", cmd.sampleDescriptor "sha256:bb"])
        (cmd.sampleContext false [] [])
      = (some (.msg "tag is ambiguous: latest"),
          [.casOpen "image", .resolveReference "latest", .closeEngine]) :=
  (unpack_guards (cmd.sampleWorld [cmd.sampleDescriptor "sha256:aa", cmd.sampleDescriptor "sha256:bb"])
    (cmd.sampleContext false [] [])).2.2.2.1
      [cmd.sampleDescriptor "sha256:aa", cmd.sampleDescriptor "sha256:bb"] [] [] rfl rfl rfl rfl
      (by decide)

/-! ## Lemmas: the name of the snapshot -/

theorem startsWith_mem (s pre : List Char) (h : cmd.startsWith s pre = true) :
    ∀ x ∈ pre, x ∈ s := by
  induction pre generalizing s with
  | nil => intro x hx; cases hx
  | cons p pre ih =>
    cases s with
    | nil => simp [cmd.startsWith] at h
    | cons c s =>
      simp only [cmd.startsWith, Bool.and_eq_true, beq_iff_eq] at h
      intro x hx
      rcases List.mem_cons.1 hx with rfl | hx
      · simp [h.1]
      · exact List.mem_cons_of_mem _ (ih s h.2 x hx)

theorem replaceFirst_no_colon (l : List Char) (h : ':' ∉ l) :
    cmd.replaceFirst ['s', 'h', 'a', '2', '5', '6', ':'] ['s', 'h', 'a', '2', '5', '6', '_'] l
      = l := by
  induction l with
  | nil => simp [cmd.replaceFirst]
  | cons c rest ih =>
    have hs : cmd.startsWith (c :: rest) ['s', 'h', 'a', '2', '5', '6', ':'] = false := by
      by_contra hc
      have hc1 : cmd.startsWith (c :: rest) ['s', 'h', 'a', '2', '5', '6', ':'] = true := by
        simpa using hc
      exact h (startsWith_mem _ _ hc1 ':' (by simp))
    rw [cmd.replaceFirst, hs]
    simp only [Bool.false_eq_true, if_false]
    rw [ih (fun hm => h (List.mem_cons_of_mem _ hm))]

theorem startsWith_digest (a h : List Char) (ha : ':' ∉ a) :
    cmd.startsWith (a ++ ':' :: h) ['s', 'h', 'a', '2', '5', '6', ':'] = true
      ↔ a = ['s', 'h', 'a', '2', '5', '6'] := by
  constructor
  · intro hs
    rcases a with _ | ⟨c0, _ | ⟨c1, _ | ⟨c2, _ | ⟨c3, _ | ⟨c4, _ | ⟨c5, _ | ⟨c6, a⟩⟩⟩⟩⟩⟩⟩ <;>
      simp [cmd.startsWith] at hs ha ⊢ <;> simp_all
  · rintro rfl
    simp [cmd.startsWith]



theorem replaceFirst_digest (a h : List Char) (ha : ':' ∉ a) (hh : ':' ∉ h) :
    ((∃ p, a = p ++ ['s', 'h', 'a', '2', '5', '6']) →
      cmd.replaceFirst ['s', 'h', 'a', '2', '5', '6', ':'] ['s', 'h', 'a', '2', '5', '6', '_']
        (a ++ ':' :: h) = a ++ '_' :: h) ∧
    ((¬ ∃ p, a = p ++ ['s', 'h', 'a', '2', '5', '6']) →
      cmd.replaceFirst ['s', 'h', 'a', '2', '5', '6', ':'] ['s', 'h', 'a', '2', '5', '6', '_']
        (a ++ ':' :: h) = a ++ ':' :: h) := by
  induction a with
  | nil =>
    constructor
    · rintro ⟨p, hp⟩
      simp at hp
    · intro _
      simp only [List.nil_append, cmd.replaceFirst, cmd.startsWith]
      simp [replaceFirst_no_colon h hh]
  | cons c a ih =>
    have ha1 : ':' ∉ a := fun hm => ha (List.mem_cons_of_mem _ hm)
    by_cases hs : cmd.startsWith ((c :: a) ++ ':' :: h) ['s', 'h', 'a', '2', '5', '6', ':'] = true
    · have heq := (startsWith_digest (c :: a) h ha).1 hs
      have hex : ∃ p, c :: a = p ++ ['s', 'h', 'a', '2', '5', '6'] := ⟨[], by simpa using heq⟩
      refine ⟨fun _ => ?_, fun hno => absurd hex hno⟩
      rw [List.cons_append] at hs
      rw [List.cons_append, cmd.replaceFirst, if_pos hs]
      rw [← List.cons_append, heq]
      rfl
    · have hne : c :: a ≠ ['s', 'h', 'a', '2', '5', '6'] :=
        fun heq => hs ((startsWith_digest (c :: a) h ha).2 heq)
      have hiff : (∃ p, c :: a = p ++ ['s', 'h', 'a', '2', '5', '6'])
          ↔ ∃ p, a = p ++ ['s', 'h', 'a', '2', '5', '6'] := by
        constructor
        · rintro ⟨p, hp⟩
          cases p with
          | nil => exact absurd (by simpa using hp) hne
          | cons q p =>
            rw [List.cons_append] at hp
            exact ⟨p, (List.cons.inj hp).2⟩
        · rintro ⟨p, hp⟩
          exact ⟨c :: p, by rw [hp]; rfl⟩
      rw [List.cons_append] at hs
      rw [List.cons_append, cmd.replaceFirst, if_neg hs]
      constructor
      · intro hex
        rw [(ih ha1).1 (hiff.1 hex)]
        rfl
      · intro hno
        rw [(ih ha1).2 (fun h1 => hno (hiff.2 h1))]

theorem append_cons_inj_last (x : Char) (l1 r1 l2 r2 : List Char) (h1 : x ∉ r1) (h2 : x ∉ r2)
    (h : l1 ++ x :: r1 = l2 ++ x :: r2) : l1 = l2 ∧ r1 = r2 := by
  induction l1 generalizing l2 with
  | nil =>
    cases l2 with
    | nil => simpa using h
    | cons c l2 =>
      simp only [List.nil_append, List.cons_append, List.cons.injEq] at h
      exact absurd (by rw [h.2]; simp) h1
  | cons b l1 ih =>
    cases l2 with
    | nil =>
      simp only [List.nil_append, List.cons_append, List.cons.injEq] at h
      exact absurd (by rw [← h.2]; simp) h2
    | cons c l2 =>
      simp only [List.cons_append, List.cons.injEq] at h
      obtain ⟨e1, e2⟩ := ih l2 h.2
      exact ⟨by rw [h.1, e1], e2⟩

theorem replaceFirst_digest_inj (a1 h1 a2 h2 : List Char)
    (ha1 : ':' ∉ a1) (hh1 : ':' ∉ h1 ∧ '_' ∉ h1) (ha2 : ':' ∉ a2) (hh2 : ':' ∉ h2 ∧ '_' ∉ h2)
    (h : cmd.replaceFirst ['s', 'h', 'a', '2', '5', '6', ':'] ['s', 'h', 'a', '2', '5', '6', '_']
          (a1 ++ ':' :: h1)
        = cmd.replaceFirst ['s', 'h', 'a', '2', '5', '6', ':'] ['s', 'h', 'a', '2', '5', '6', '_']
          (a2 ++ ':' :: h2)) :
    a1 = a2 ∧ h1 = h2 := by
  obtain ⟨p1, n1⟩ := replaceFirst_digest a1 h1 ha1 hh1.1
  obtain ⟨p2, n2⟩ := replaceFirst_digest a2 h2 ha2 hh2.1
  by_cases c1 : ∃ p, a1 = p ++ ['s', 'h', 'a', '2', '5', '6'] <;>
    by_cases c2 : ∃ p, a2 = p ++ ['s', 'h', 'a', '2', '5', '6'] <;>
    first
      | rw [p1 c1, p2 c2] at h
      | rw [p1 c1, n2 c2] at h
      | rw [n1 c1, p2 c2] at h
      | rw [n1 c1, n2 c2] at h
  · exact append_cons_inj_last '_' a1 h1 a2 h2 hh1.2 hh2.2 h
  · exfalso
    have : ':' ∈ a1 ++ '_' :: h1 := by rw [h]; simp
    simp only [List.mem_append, List.mem_cons] at this
    rcases this with h3 | h3 | h3
    · exact ha1 h3
    · exact absurd h3 (by decide)
    · exact hh1.1 h3
  · exfalso
    have : ':' ∈ a2 ++ '_' :: h2 := by rw [← h]; simp
    simp only [List.mem_append, List.mem_cons] at this
    rcases this with h3 | h3 | h3
    · exact ha2 h3
    · exact absurd h3 (by decide)
    · exact hh2.1 h3
  · exact append_cons_inj_last ':' a1 h1 a2 h2 hh1.1 hh2.1 h


theorem sha256_old : "sha256:".data = ['s', 'h', 'a', '2', '5', '6', ':'] := rfl
theorem sha256_new : "sha256_".data = ['s', 'h', 'a', '2', '5', '6', '_'] := rfl

theorem digest_data (alg hex : String) :
    (alg ++ ":" ++ hex).data = alg.data ++ ':' :: hex.data := by
  simp [String.data_append]

theorem mtreeName_sha256 (hex : String) :
    cmd.mtreeName ("sha256:" ++ hex) = "sha256_" ++ hex := by
  apply String.ext
  simp only [cmd.mtreeName, String.data_append, sha256_old, sha256_new]
  simp [cmd.replaceFirst, cmd.startsWith]

theorem mtreeName_digest (alg hex : String) (ha : ':' ∉ alg.data) (hh : ':' ∉ hex.data) :
    ((∃ p : String, alg = p ++ "sha256") → cmd.mtreeName (alg ++ ":" ++ hex) = alg ++ "_" ++ hex) ∧
    ((¬ ∃ p : String, alg = p ++ "sha256") →
      cmd.mtreeName (alg ++ ":" ++ hex) = alg ++ ":" ++ hex) := by
  obtain ⟨h1, h2⟩ := replaceFirst_digest alg.data hex.data ha hh
  have hiff : (∃ p : String, alg = p ++ "sha256")
      ↔ ∃ p : List Char, alg.data = p ++ ['s', 'h', 'a', '2', '5', '6'] := by
    constructor
    · rintro ⟨p, hp⟩
      exact ⟨p.data, by rw [hp, String.data_append]⟩
    · rintro ⟨p, hp⟩
      exact ⟨⟨p⟩, String.ext (by rw [hp, String.data_append])⟩
  constructor
  · intro hex1
    apply String.ext
    simp only [cmd.mtreeName, digest_data, sha256_old, sha256_new]
    rw [h1 (hiff.1 hex1)]
    simp [String.data_append]
  · intro hno
    apply String.ext
    simp only [cmd.mtreeName, digest_data, sha256_old, sha256_new]
    rw [h2 (fun h => hno (hiff.2 h))]

theorem mtreeName_inj (a1 h1 a2 h2 : String)
    (ha1 : ':' ∉ a1.data) (hh1 : ':' ∉ h1.data ∧ '_' ∉ h1.data)
    (ha2 : ':' ∉ a2.data) (hh2 : ':' ∉ h2.data ∧ '_' ∉ h2.data)
    (h : cmd.mtreeName (a1 ++ ":" ++ h1) ++ ".mtree" = cmd.mtreeName (a2 ++ ":" ++ h2) ++ ".mtree") :
    a1 = a2 ∧ h1 = h2 := by
  have hd := congrArg String.data h
  simp only [String.data_append, List.append_cancel_right_eq] at hd
  simp only [cmd.mtreeName, digest_data, sha256_old, sha256_new] at hd
  obtain ⟨e1, e2⟩ := replaceFirst_digest_inj a1.data h1.data a2.data h2.data ha1 hh1 ha2 hh2 hd
  exact ⟨String.ext e1, String.ext e2⟩

/-- C8, as stated, fails: for the digest `sha512:abcd` the name of the
snapshot is `sha512:abcd.mtree`, with its colon, and not
`sha512_abcd.mtree`. -/
theorem snapshot_name_counterexample :
    cmd.mtreeName "sha512:abcd" ++ ".mtree" = "sha512:abcd.mtree" ∧
    cmd.mtreeName "sha512:abcd" ++ ".mtree" ≠ "sha512_abcd.mtree" ∧
    ':' ∈ (cmd.mtreeName "sha512:abcd" ++ ".mtree").data := by
  decide

/-- C8, amended: for every digest `sha256:<hex>` the path of the snapshot is
the bundle path joined with `sha256_<hex>.mtree`, a name without a colon when
`<hex>` has none.  For a digest `<algorithm>:<hex>` whose algorithm does not
end in `sha256` the digest is taken as it is, colon included.  Two different
digests `<algorithm>:<hex>` (no colon in the algorithm, neither colon nor
underscore in the hex part) give two different names.  The snapshot file
that `unpack` opens is the one at that path, for the digest of the one
descriptor the tag resolves to. -/
theorem snapshot_name (w : cmd.World) (bundle : String) :
    (∀ hex : String,
      cmd.mtreePath w bundle ("sha256:" ++ hex) = w.Join bundle ("sha256_" ++ hex ++ ".mtree")) ∧
    (∀ hex : String, ':' ∉ hex.data →
      ':' ∉ (cmd.mtreeName ("sha256:" ++ hex) ++ ".mtree").data) ∧
    (∀ alg hex : String, ':' ∉ alg.data → ':' ∉ hex.data →
      (¬ ∃ p : String, alg = p ++ "sha256") →
      cmd.mtreePath w bundle (alg ++ ":" ++ hex) = w.Join bundle (alg ++ ":" ++ hex ++ ".mtree")) ∧
    (∀ a1 h1 a2 h2 : String,
      ':' ∉ a1.data → ':' ∉ h1.data → '_' ∉ h1.data →
      ':' ∉ a2.data → ':' ∉ h2.data → '_' ∉ h2.data →
      cmd.mtreeName (a1 ++ ":" ++ h1) ++ ".mtree" = cmd.mtreeName (a2 ++ ":" ++ h2) ++ ".mtree" →
      a1 ++ ":" ++ h1 = a2 ++ ":" ++ h2) ∧
    (∀ (ctx : cmd.Context) (p : String), cmd.Effect.openFile p ∈ (cmd.unpack w ctx).2 →
      ∃ d, w.ResolveReference ctx.imageTag = .ok [d] ∧
        p = cmd.mtreePath w ctx.bundle d.Digest) := by
  refine ⟨?_, ?_, ?_, ?_, fun ctx p h => unpack_openFile w ctx p h⟩
  · intro hex
    rw [cmd.mtreePath, mtreeName_sha256]
  · intro hex hh
    rw [mtreeName_sha256]
    simp only [String.data_append, List.mem_append, not_or]
    exact ⟨⟨by decide, hh⟩, by decide⟩
  · intro alg hex ha hh hno
    rw [cmd.mtreePath, (mtreeName_digest alg hex ha hh).2 hno]
  · intro a1 h1 a2 h2 ha1 hh1 hu1 ha2 hh2 hu2 h
    obtain ⟨e1, e2⟩ := mtreeName_inj a1 h1 a2 h2 ha1 ⟨hh1, hu1⟩ ha2 ⟨hh2, hu2⟩ h
    rw [e1, e2]

/-- C8, amended, at a concrete input: a `sha256` digest. -/
theorem snapshot_name_witness :
    ':' ∉ (cmd.mtreeName ("sha256:" ++ "0a1b") ++ ".mtree").data ∧
    cmd.mtreeName ("sha256:" ++ "0a1b") ++ ".mtree" = "sha256_0a1b.mtree" :=
  ⟨(snapshot_name (cmd.sampleWorld []) "bundle").2.1 "0a1b" (by decide), by decide⟩


/-! ## Lemmas: the default mappings -/


theorem digitChar_spec (d : Nat) (h : d < 10) :
    (cmd.digitChar d).isDigit = true ∧ (cmd.digitChar d).toNat - 48 = d ∧ cmd.digitChar d ≠ ':' := by
  interval_cases d <;> decide

theorem itoa_go_digits (fuel n : Nat) (acc : List Char) :
    ∃ ds : List Char, cmd.itoa.go fuel n acc = ds ++ acc ∧
      (∀ c ∈ ds, ∃ d, d < 10 ∧ c = cmd.digitChar d) ∧ (0 < fuel → ds ≠ []) := by
  induction fuel generalizing n acc with
  | zero => exact ⟨[], rfl, by simp, by simp⟩
  | succ fuel ih =>
    rw [cmd.itoa.go]
    split
    · refine ⟨[cmd.digitChar (n % 10)], rfl, ?_, by simp⟩
      intro c hc
      rw [List.mem_singleton] at hc
      exact ⟨n % 10, Nat.mod_lt _ (by decide), hc⟩
    · obtain ⟨ds, h1, h2, -⟩ := ih (n / 10) (cmd.digitChar (n % 10) :: acc)
      refine ⟨ds ++ [cmd.digitChar (n % 10)], by rw [h1]; simp, ?_, by simp⟩
      intro c hc
      rcases List.mem_append.1 hc with hc | hc
      · exact h2 c hc
      · rw [List.mem_singleton] at hc
        exact ⟨n % 10, Nat.mod_lt _ (by decide), hc⟩

theorem itoa_go_value (fuel : Nat) :
    ∀ (n : Nat) (acc : List Char), n < fuel →
      (cmd.itoa.go fuel n acc).foldl (fun a c => a * 10 + (c.toNat - 48)) 0
        = acc.foldl (fun a c => a * 10 + (c.toNat - 48)) n := by
  induction fuel with
  | zero => intro n acc h; omega
  | succ fuel ih =>
    intro n acc h
    rw [cmd.itoa.go]
    have hd := (digitChar_spec (n % 10) (Nat.mod_lt _ (by decide))).2.1
    split
    · rename_i h0
      simp only [List.foldl_cons, hd]
      congr 1
      have := Nat.div_add_mod n 10
      omega
    · rename_i h0
      rw [ih (n / 10) _ (by omega)]
      simp only [List.foldl_cons, hd]
      congr 1
      have := Nat.div_add_mod n 10
      omega

theorem atoi_itoa (n : Nat) : cmd.atoi (cmd.itoa n).data = some n := by
  obtain ⟨ds, h1, h2, h3⟩ := itoa_go_digits (n + 1) n []
  have hv := itoa_go_value (n + 1) n [] (by omega)
  simp only [cmd.itoa] at *
  rw [List.append_nil] at h1
  have hne : cmd.itoa.go (n + 1) n [] ≠ [] := by rw [h1]; exact h3 (by omega)
  have hall : (cmd.itoa.go (n + 1) n []).all Char.isDigit = true := by
    rw [h1, List.all_eq_true]
    intro c hc
    obtain ⟨d, hd, rfl⟩ := h2 c hc
    exact (digitChar_spec d hd).1
  rw [cmd.atoi, if_pos ⟨hne, hall⟩, hv]
  rfl

theorem itoa_no_colon (n : Nat) : ∀ c ∈ (cmd.itoa n).data, c ≠ ':' := by
  obtain ⟨ds, h1, h2, -⟩ := itoa_go_digits (n + 1) n []
  intro c hc
  simp only [cmd.itoa] at hc
  rw [h1, List.append_nil] at hc
  obtain ⟨d, hd, rfl⟩ := h2 c hc
  exact (digitChar_spec d hd).2.2

theorem parse_default (n : Nat) :
    cmd.ParseMapping (cmd.itoa n ++ ":0:1") = .ok ⟨n, 0, 1⟩ := by
  have hsplit : (cmd.itoa n ++ ":0:1").data.splitOn ':' = [(cmd.itoa n).data, ['0'], ['1']] := by
    have e : (cmd.itoa n ++ ":0:1").data = (cmd.itoa n).data ++ ':' :: ['0', ':', '1'] := by
      rw [String.data_append]
    rw [e, List.splitOn, List.splitOnP_first]
    · rfl
    · intro c hc
      simpa using itoa_no_colon n c hc
    · simp
  rw [cmd.ParseMapping, hsplit]
  simp only [atoi_itoa]
  rfl

theorem parseMappings_order (w : cmd.World) (flag : String) :
    ∀ (values : List String) (maps : List cmd.IDMapping),
      cmd.parseMappings w flag values = .ok maps →
      values.map w.ParseMapping = maps.map Except.ok := by
  intro values
  induction values with
  | nil =>
    intro maps h
    simp only [cmd.parseMappings, Except.ok.injEq] at h
    subst h; rfl
  | cons v rest ih =>
    intro maps h
    rw [cmd.parseMappings] at h
    cases hv : w.ParseMapping v with
    | error err => simp [hv] at h
    | ok m =>
      cases hr : cmd.parseMappings w flag rest with
      | error err => simp [hv, hr] at h
      | ok ms =>
        simp only [hv, hr, Except.ok.injEq] at h
        subst h
        simp [hv, ih ms hr]

/-- The default mappings of rootless mode.  With `--rootless` and no
`--uid-map`, `unpack` adds the one string `<euid>:0:1` to the values of the
flag, and likewise `<egid>:0:1` for `--gid-map`.  Each of the two is filled
in only when that flag was not given, whatever the other one is; the values
of a flag that was given stay as they are; without `--rootless` nothing is
added; and the values of a flag are parsed one by one in their order.  Read
by the parser modelled from the specification, `<euid>:0:1` is the mapping
with containerID the effective uid, hostID 0 and size 1. -/
theorem rootless_defaults (w : cmd.World) (ctx : cmd.Context) :
    (ctx.rootless = true → ctx.uidMapSet = false →
      (cmd.rootlessDefaults w ctx).uidMap = ctx.uidMap ++ [cmd.itoa w.Geteuid ++ ":0:1"]) ∧
    (ctx.rootless = true → ctx.gidMapSet = false →
      (cmd.rootlessDefaults w ctx).gidMap = ctx.gidMap ++ [cmd.itoa w.Getegid ++ ":0:1"]) ∧
    (ctx.uidMapSet = true → (cmd.rootlessDefaults w ctx).uidMap = ctx.uidMap) ∧
    (ctx.gidMapSet = true → (cmd.rootlessDefaults w ctx).gidMap = ctx.gidMap) ∧
    (ctx.rootless = false → cmd.rootlessDefaults w ctx = ctx) ∧
    cmd.ParseMapping (cmd.itoa w.Geteuid ++ ":0:1") = .ok ⟨w.Geteuid, 0, 1⟩ ∧
    cmd.ParseMapping (cmd.itoa w.Getegid ++ ":0:1") = .ok ⟨w.Getegid, 0, 1⟩ ∧
    (∀ (flag : String) (values : List String) (maps : List cmd.IDMapping),
      cmd.parseMappings w flag values = .ok maps →
      values.map w.ParseMapping = maps.map Except.ok) := by
  refine ⟨?_, ?_, ?_, ?_, ?_, parse_default _, parse_default _,
    fun flag => parseMappings_order w flag⟩
  · intro hr hu
    cases hg : ctx.gidMapSet <;>
      simp [cmd.rootlessDefaults, hr, hu, hg, cmd.Context.setUidMap, cmd.Context.setGidMap]
  · intro hr hg
    cases hu : ctx.uidMapSet <;>
      simp [cmd.rootlessDefaults, hr, hu, hg, cmd.Context.setUidMap, cmd.Context.setGidMap]
  · intro hu
    cases hr : ctx.rootless <;> cases hg : ctx.gidMapSet <;>
      simp [cmd.rootlessDefaults, hr, hu, hg, cmd.Context.setUidMap, cmd.Context.setGidMap]
  · intro hg
    cases hr : ctx.rootless <;> cases hu : ctx.uidMapSet <;>
      simp [cmd.rootlessDefaults, hr, hu, hg, cmd.Context.setUidMap, cmd.Context.setGidMap]
  · intro hr
    simp [cmd.rootlessDefaults, hr]

/-- The default mappings at a concrete input: `--rootless` with an explicit
`--uid-map` and no `--gid-map`, effective gid 100. -/
theorem rootless_defaults_witness :
    (cmd.rootlessDefaults (cmd.sampleWorld []) (cmd.sampleContext true ["0:1000:1"] [])).uidMap
      = ["0:1000:1"] ∧
    (cmd.rootlessDefaults (cmd.sampleWorld []) (cmd.sampleContext true ["0:1000:1"] [])).gidMap
      = ["100:0:1"] :=
  ⟨(rootless_defaults (cmd.sampleWorld []) (cmd.sampleContext true ["0:1000:1"] [])).2.2.1 rfl,
   (rootless_defaults (cmd.sampleWorld []) (cmd.sampleContext true ["0:1000:1"] [])).2.1 rfl rfl⟩


/-- C9, at the failing input: `unpack --rootless` without `--uid-map` and
`--gid-map`, run with effective uid 1000 and gid 100, with the flags parsed
as `containerID:hostID:size`.  The strings made up are `1000:0:1` and
`100:0:1`, and `UnpackManifest` is handed the mapping of container id 1000
to host id 0 (and of container gid 100 to host gid 0), not the mapping of
container id 0 to host id 1000. -/
theorem rootless_mapping_swapped :
    (cmd.rootlessDefaults cmd.rootlessWorld (cmd.sampleContext true [] [])).uidMap
      = ["1000:0:1"] ∧
    (cmd.rootlessDefaults cmd.rootlessWorld (cmd.sampleContext true [] [])).gidMap
      = ["100:0:1"] ∧
    cmd.rootlessWorld.ParseMapping "1000:0:1" = .ok ⟨1000, 0, 1⟩ ∧
    cmd.unpack cmd.rootlessWorld (cmd.sampleContext true [] [])
      = (none,
          [.casOpen "image", .resolveReference "latest",
            .fromDescriptor (cmd.sampleDescriptor "sha256:aa"),
            .mkdirAll "bundle",
            .unpackManifest "bundle" cmd.sampleManifest ⟨[⟨1000, 0, 1⟩], [⟨100, 0, 1⟩], true⟩,
            .walk "bundle/rootfs" true,
            .openFile "bundle/sha256_aa.mtree",
            .writeTo "bundle/sha256_aa.mtree",
            .writeBundleMeta "bundle"
              ⟨"0.2.0", cmd.sampleDescriptor "sha256:aa",
                ⟨[⟨1000, 0, 1⟩], [⟨100, 0, 1⟩], true⟩⟩,
            .closeFile, .closeBlob, .closeEngine]) ∧
    (⟨1000, 0, 1⟩ : cmd.IDMapping) ≠ ⟨0, 1000, 1⟩ := by
  refine ⟨by decide, by decide, rfl, ?_, by decide⟩
  decide

end Umoci
